import Mathlib

/-!
Transmission-tree primitives of outbreaker2 (`src/internals.cpp`)

A shallow embedding of the C++ helpers that query and mutate a transmission
tree, followed by theorems about them.

Conventions of the embedding

* An `Rcpp::IntegerVector` / `std::vector<int>` is a `List Int`; its entries
  are 32-bit `int`s, `NA_INTEGER` being the smallest one.
* A `size_t` is a `Nat` below `2 ^ 64`; `i - 1` wraps modulo `2 ^ 64`.
* The conversions between `int` and `size_t` that the C++ performs silently
  (`alpha[j] == i`, `(size_t) alpha[i-1]`, `out[k] = j + 1`) are written out
  as `toSizeT` and `toInt`.
* A `double` is a rational of the form `m * 2 ^ e` with a 53-bit `m`; the
  product of two `double`s is rounded to the nearest `double`, ties to even.
* `v[k]` on an Rcpp vector is not bounds-checked.  A subscript outside the
  vector is reported as `Failure.outOfRange`; `Rcpp::stop` is reported as
  `Failure.stop`.
-/

namespace Outbreaker

/-! ## Machine integers -/

/-- Number of values of a `size_t` (64-bit). -/
def SIZE_MOD : Nat := 18446744073709551616

/-- Number of values of an `int` (32-bit). -/
def INT_MOD : Nat := 4294967296

/-- Largest `int`. -/
def INT_MAX : Int := 2147483647

/-- The missing integer of R, the smallest `int`; marks an imported case in `alpha`. -/
def NA_INTEGER : Int := -2147483648

/-- Conversion `int → size_t` (value modulo `2 ^ 64`). -/
def toSizeT (z : Int) : Nat := (z % (SIZE_MOD : Int)).toNat

/-- Conversion `size_t → int` (value modulo `2 ^ 32`, read as a signed value). -/
def toInt (n : Nat) : Int :=
  if n % INT_MOD < 2147483648 then ((n % INT_MOD : Nat) : Int)
  else ((n % INT_MOD : Nat) : Int) - (INT_MOD : Int)

/-- Subtraction on `size_t`: `a - b` modulo `2 ^ 64`. -/
def subSize (a b : Nat) : Nat := (a + SIZE_MOD - b % SIZE_MOD) % SIZE_MOD

/-! ## Failures and vector access -/

/-- The two calls to `Rcpp::stop` in the file. -/
inductive StopMessage where
  /-- Message: Trying to sample from empty vector -/
  | emptySample
  /-- Message: Trying to get genetic distances between missing sequences. -/
  | missingSequences
  deriving DecidableEq, Repr

/-- How a call can fail to return. -/
inductive Failure where
  /-- `Rcpp::stop(msg)`: an R error surfaced to the caller. -/
  | stop (msg : StopMessage)
  /-- An unchecked subscript outside the vector. -/
  | outOfRange
  deriving DecidableEq, Repr

/-- Outcome of a call: a value or a failure. -/
abbrev Result (α : Type) : Type := Except Failure α

deriving instance DecidableEq for Except

/-- Read `v[k]`. -/
def readAt (v : List Int) (k : Nat) : Result Int :=
  if h : k < v.length then .ok (v.get ⟨k, h⟩) else .error .outOfRange

/-- Assignment `v[k] = a`. -/
def writeAt (v : List Int) (k : Nat) (a : Int) : Result (List Int) :=
  if k < v.length then .ok (v.set k a) else .error .outOfRange

/-- Loop `for (size_t j = 0; j < n; j++) body`, threading the mutated variables. -/
def forLoop {σ : Type} (n : Nat) (body : Nat → σ → Result σ) (init : σ) : Result σ :=
  (List.range n).foldlM (fun st j => body j st) init

/-! ## `cpp_are_possible_ancestors` -/

/-- Source `cpp_are_possible_ancestors(t_inf, i)`: the cases (scale `1:N`)
whose infection date precedes that of `i`. -/
def cpp_are_possible_ancestors (t_inf : List Int) (i : Nat) : Result (List Int) :=
  let n := t_inf.length
  forLoop n (fun j out => do
    let tj ← readAt t_inf j
    let ti ← readAt t_inf (subSize i 1)
    if tj < ti then
      pure (out ++ [toInt (j + 1)])
    else
      pure out) []

/-! ## Double-precision arithmetic -/

/-- Round a rational to the nearest integer, a tie going to the even one. -/
def roundHalfEven (r : ℚ) : Int :=
  if r - (r.floor : ℚ) < 1 / 2 then r.floor
  else if 1 / 2 < r - (r.floor : ℚ) then r.floor + 1
  else if r.floor % 2 = 0 then r.floor else r.floor + 1

/-- Exponent of the spacing of the `double`s around a positive `q`: 53
significant bits, and the fixed spacing `2 ^ (-1074)` below `2 ^ (-1022)`. -/
def ulpExponent (q : ℚ) : Int := max (Int.log 2 q) (-1022) - 52

/-- Rounding of a non-negative rational below the overflow threshold to a
`double`: IEEE 754 binary64, round to nearest, ties to even. -/
def roundDouble (q : ℚ) : ℚ :=
  (roundHalfEven (q / (2 : ℚ) ^ ulpExponent q) : ℚ) * (2 : ℚ) ^ ulpExponent q

/-- A non-negative finite `double`: `m * 2 ^ e` with a 53-bit `m`. -/
def IsDouble (q : ℚ) : Prop :=
  ∃ (m : Nat) (e : Int), m < 2 ^ 53 ∧ -1074 ≤ e ∧ e ≤ 971 ∧ q = (m : ℚ) * (2 : ℚ) ^ e

/-- Conversion `size_t → double`. -/
def sizeToDouble (n : Nat) : ℚ := roundDouble (n : ℚ)

/-- Product of two non-negative `double`s. -/
def mulDouble (a b : ℚ) : ℚ := roundDouble (a * b)

/-- Conversion `double → size_t` of a non-negative value below `2 ^ 64`: truncation. -/
def doubleToSize (q : ℚ) : Nat := q.floor.toNat

/-! ## `cpp_sample1` and `cpp_pick_possible_ancestor` -/

/-- The subscript `unif_rand() * x.size()` of `cpp_sample1`, for the draw `u` and
a vector of `n` elements: the size is converted to `double`, multiplied by the
draw in `double`, and the product is converted to `size_t`. -/
def sampleSlot (u : ℚ) (n : Nat) : Nat := doubleToSize (mulDouble u (sizeToDouble n))

/-- Source `cpp_sample1(x)`. The draw `unif_rand()` of the random source of R is
the argument `u`, a `double`. The returned `int` is converted to the `size_t`
return type. -/
def cpp_sample1 (u : ℚ) (x : List Int) : Result Nat :=
  if x.length < 1 then
    .error (.stop .emptySample)
  else do
    let v ← readAt x (sampleSlot u x.length)
    pure (toSizeT v)

/-- Source `cpp_pick_possible_ancestor(t_inf, i)`. -/
def cpp_pick_possible_ancestor (u : ℚ) (t_inf : List Int) (i : Nat) : Result Nat := do
  let cands ← cpp_are_possible_ancestors t_inf i
  cpp_sample1 u cands

/-! ## `cpp_find_descendents` -/

/-- Source `cpp_find_descendents(alpha, i)`: count, allocate, fill. -/
def cpp_find_descendents (alpha : List Int) (i : Nat) : Result (List Int) := do
  -- determine size of output vector and create it
  let n ← forLoop alpha.length (fun j n => do
    let aj ← readAt alpha j
    if toSizeT aj = i then pure (n + 1) else pure n) 0
  let out : List Int := List.replicate n 0
  -- fill in output vector
  let r ← forLoop alpha.length (fun j (st : List Int × Nat) => do
    let aj ← readAt alpha j
    if toSizeT aj = i then
      let out ← writeAt st.1 st.2 (toInt (j + 1))
      pure (out, st.2 + 1)
    else
      pure st) (out, 0)
  pure r.1

/-! ## `cpp_find_local_cases` -/

/-- Source `cpp_find_local_cases(alpha, i)`: `i`, its descendents, its
ancestor and the other descendents of that ancestor. -/
def cpp_find_local_cases (alpha : List Int) (i : Nat) : Result (List Int) := do
  -- determine descendents of i
  let desc_i ← cpp_find_descendents alpha i
  let n := desc_i.length + 1
  -- determine descendents of alpha[i]
  let ai ← readAt alpha (subSize i 1)
  let desc_alpha_i ← cpp_find_descendents alpha (toSizeT ai)
  let n := if ai ≠ NA_INTEGER then n + desc_alpha_i.length else n
  -- create output
  let out : List Int := List.replicate n 0
  let counter := 0
  -- i
  let out ← writeAt out counter (toInt i)
  let counter := counter + 1
  -- descendents of i
  let st ← forLoop desc_i.length (fun j (st : List Int × Nat) => do
    let d ← readAt desc_i j
    let out ← writeAt st.1 st.2 d
    pure (out, st.2 + 1)) (out, counter)
  if ai ≠ NA_INTEGER then
    -- alpha[i-1] ...
    let out ← writeAt st.1 st.2 ai
    let counter := st.2 + 1
    -- ... and its descendents
    let st ← forLoop desc_alpha_i.length (fun j (st : List Int × Nat) => do
      let d ← readAt desc_alpha_i j
      if toSizeT d ≠ i then
        let out ← writeAt st.1 st.2 d
        pure (out, st.2 + 1)
      else
        pure st) (out, counter)
    pure st.1
  else
    pure st.1

/-! ## `cpp_swap_cases` -/

/-- The list `param` of `cpp_swap_cases`, with its elements `alpha` and `t_inf`. -/
structure Param where
  alpha : List Int
  t_inf : List Int
  deriving DecidableEq, Repr

/-- Source `cpp_swap_cases(param, i)`: swap `i` with its ancestor
`x = alpha[i-1]`. The result holds the (modified) clones of both vectors. -/
def cpp_swap_cases (param : Param) (i : Nat) : Result Param := do
  let alpha_in := param.alpha
  let t_inf_in := param.t_inf
  let alpha_out := alpha_in
  let t_inf_out := t_inf_in
  let N := alpha_in.length
  -- escape if the case is imported, i.e. alpha[i-1] is NA
  let ai ← readAt alpha_in (subSize i 1)
  if ai = NA_INTEGER then
    pure ⟨alpha_out, t_inf_out⟩
  else
    -- escape if ancestor of the case is imported, i.e. alpha[x-1] is NA
    let x := toSizeT ai
    let ax ← readAt alpha_in (subSize x 1)
    if ax = NA_INTEGER then
      pure ⟨alpha_out, t_inf_out⟩
    else
      -- replace ancestries
      let alpha_out ← forLoop N (fun j alpha_out => do
        let aj ← readAt alpha_in j
        if toSizeT aj = i then
          writeAt alpha_out j (toInt x)
        else if toSizeT aj = x then
          writeAt alpha_out j (toInt i)
        else
          pure alpha_out) alpha_out
      -- the ancestor of i becomes an ancestor of x
      let alpha_out ← writeAt alpha_out (subSize i 1) ax
      -- i is now the ancestor of x
      let alpha_out ← writeAt alpha_out (subSize x 1) (toInt i)
      -- swap infections times of i and x
      let tx ← readAt t_inf_in (subSize x 1)
      let t_inf_out ← writeAt t_inf_out (subSize i 1) tx
      let ti ← readAt t_inf_in (subSize i 1)
      let t_inf_out ← writeAt t_inf_out (subSize x 1) ti
      pure ⟨alpha_out, t_inf_out⟩

/-! ## `cpp_get_n_mutations` -/

/-- An `Rcpp::IntegerMatrix`: `nrow * ncol` entries stored by column. -/
structure IntegerMatrix where
  nrow : Nat
  ncol : Nat
  entries : List Int
  deriving DecidableEq, Repr

/-- Subscript `D(r, c)` of an Rcpp matrix, called with `size_t` arguments: the
arguments are passed on as `int`s, and the element at offset `r + nrow * c` of
the storage is read. -/
def IntegerMatrix.entry (D : IntegerMatrix) (r c : Nat) : Result Int :=
  let offset : Int := toInt r + (D.nrow : Int) * toInt c
  if 0 ≤ offset then readAt D.entries offset.toNat else .error .outOfRange

/-- The list `data` of `cpp_get_n_mutations`. A `LogicalVector` stores `int`s;
a value counts as true when it is not zero. -/
structure Data where
  has_dna : List Int
  id_in_dna : List Int
  D : IntegerMatrix
  deriving DecidableEq, Repr

/-- Source `cpp_get_n_mutations(data, i, j)`. -/
def cpp_get_n_mutations (data : Data) (i j : Nat) : Result Nat := do
  let hi ← readAt data.has_dna (subSize i 1)
  -- `&&` evaluates its right operand only when the left one is true
  let both ← if hi ≠ 0 then do
      let hj ← readAt data.has_dna (subSize j 1)
      pure (decide (hj ≠ 0))
    else pure false
  if !both then
    .error (.stop .missingSequences)
  else
    let ii ← readAt data.id_in_dna (subSize i 1)
    let ij ← readAt data.id_in_dna (subSize j 1)
    let d ← data.D.entry (toSizeT (ii - 1)) (toSizeT (ij - 1))
    pure (toSizeT d)

/-! ## The data model of the specification -/

/-- Value stored in a vector for case `k` (scale `1:N`). -/
def caseValue (v : List Int) (k : Nat) : Int := v.getD (k - 1) 0

/-- Case `k` is a case of a tree with `N` cases. -/
def IsCase (N k : Nat) : Prop := 1 ≤ k ∧ k ≤ N

instance (N k : Nat) : Decidable (IsCase N k) := by
  unfold IsCase; infer_instance

/-- An ancestry vector is well formed: case identifiers fit an `int`, and every
entry is the imported marker or a case of the tree. -/
def WellFormedAlpha (alpha : List Int) : Prop :=
  (alpha.length : Int) ≤ INT_MAX ∧
    ∀ a ∈ alpha, a = NA_INTEGER ∨ (1 ≤ a ∧ a ≤ (alpha.length : Int))

instance (alpha : List Int) : Decidable (WellFormedAlpha alpha) := by
  unfold WellFormedAlpha; infer_instance

/-- A tree state is well formed: a well-formed ancestry vector and an
infection-time vector of the same length. -/
def WellFormed (p : Param) : Prop :=
  WellFormedAlpha p.alpha ∧ p.t_inf.length = p.alpha.length

instance (p : Param) : Decidable (WellFormed p) := by
  unfold WellFormed; infer_instance

/-- The type of an integer vector holding case identifiers: every entry is an
`int`, and so is the length. -/
def IsIntegerVector (v : List Int) : Prop :=
  (v.length : Int) ≤ INT_MAX ∧ ∀ a ∈ v, NA_INTEGER ≤ a ∧ a ≤ INT_MAX

instance (v : List Int) : Decidable (IsIntegerVector v) := by
  unfold IsIntegerVector; infer_instance

/-! ## Auxiliary notions used in the proofs -/

/-- State of a fill loop: the first `L.length` slots of a vector allocated with
`total` zero entries hold `L`, and the counter stands after them. -/
def Filled (L : List Int) (total : Nat) (st : List Int × Nat) : Prop :=
  st.2 = L.length ∧ L.length ≤ total ∧ st.1 = L ++ List.replicate (total - L.length) 0

/-- The descendents of `i` as the C++ comparison `alpha[j] == i` selects them. -/
def descSlots (alpha : List Int) (i : Nat) : List Nat :=
  (List.range alpha.length).filter (fun j => decide (toSizeT (alpha.getD j 0) = i))

/-- The descendents of `i` on the scale `1:N`, as `cpp_find_descendents` reports them. -/
def descCases (alpha : List Int) (i : Nat) : List Int :=
  (descSlots alpha i).map (fun j => ((j + 1 : Nat) : Int))

/-! ## The forest invariant -/

/-- Ancestor of `a` in the tree: the entry of `a` when `a` is a case, the
imported marker otherwise. -/
def ancestorOf (alpha : List Int) (a : Int) : Int :=
  if 1 ≤ a ∧ a ≤ (alpha.length : Int) then alpha.getD (a - 1).toNat 0 else NA_INTEGER

/-- The value `a` is an imported case of the tree. -/
def IsImported (alpha : List Int) (a : Int) : Prop :=
  1 ≤ a ∧ a ≤ (alpha.length : Int) ∧ alpha.getD (a - 1).toNat 0 = NA_INTEGER

instance (alpha : List Int) (a : Int) : Decidable (IsImported alpha a) := by
  unfold IsImported; infer_instance

/-- The forest invariant: following `alpha` from any case reaches an imported case. -/
def NoCycles (alpha : List Int) : Prop :=
  ∀ k : Nat, IsCase alpha.length k →
    ∃ n : Nat, IsImported alpha ((ancestorOf alpha)^[n] (k : Int))

/-! ## The dataset of the specification -/

/-- Entry `D[a, b]` of the mutation-count matrix, by compact sequence indices
starting at 1. -/
def matrixValue (D : IntegerMatrix) (a b : Nat) : Int :=
  D.entries.getD ((a - 1) + D.nrow * (b - 1)) 0

/-- A dataset is well formed: one presence flag and one sequence index per
case, a square matrix of non-negative `int`s, and a valid sequence index for
every case whose presence flag is set. -/
def WellFormedData (data : Data) : Prop :=
  (data.has_dna.length : Int) ≤ INT_MAX ∧
  data.id_in_dna.length = data.has_dna.length ∧
  data.D.ncol = data.D.nrow ∧
  (data.D.nrow : Int) ≤ INT_MAX ∧
  data.D.entries.length = data.D.nrow * data.D.ncol ∧
  (∀ d ∈ data.D.entries, 0 ≤ d ∧ d ≤ INT_MAX) ∧
  ∀ p ∈ List.zip data.has_dna data.id_in_dna,
    p.1 ≠ 0 → 1 ≤ p.2 ∧ p.2 ≤ (data.D.nrow : Int)

instance (data : Data) : Decidable (WellFormedData data) := by
  unfold WellFormedData; infer_instance

/-! ## Auxiliary notions for `cpp_swap_cases` -/

/-- What the relinking loop of `cpp_swap_cases` stores for an entry `a`. -/
def relink (i x : Nat) (a : Int) : Int :=
  if toSizeT a = i then toInt x else if toSizeT a = x then toInt i else a

/-- The transposition of the identifiers `i` and `x`; every other value, the
imported marker included, is fixed. -/
def swapIds (i x : Nat) (a : Int) : Int :=
  if a = (i : Int) then (x : Int) else if a = (x : Int) then (i : Int) else a

/-! ## Further notions of the specification -/

/-- The transposition of the cases `i` and `x`, on case identifiers. -/
def swapCase (i x k : Nat) : Nat :=
  if k = i then x else if k = x then i else k

/-- Time ordering of a tree state: every case that is not imported is infected
strictly after its ancestor. -/
def TimeOrdered (p : Param) : Prop :=
  ∀ k : Nat, IsCase p.alpha.length k → caseValue p.alpha k ≠ NA_INTEGER →
    caseValue p.t_inf (caseValue p.alpha k).toNat < caseValue p.t_inf k

/-! ## Lemmas -/

theorem toSizeT_nat (n : Nat) (h : n < SIZE_MOD) : toSizeT (n : Int) = n := by
  unfold toSizeT SIZE_MOD at *; omega

theorem toSizeT_NA : toSizeT NA_INTEGER = 18446744071562067968 := by decide

theorem toInt_small (n : Nat) (h : (n : Int) ≤ INT_MAX) : toInt n = n := by
  unfold toInt INT_MOD INT_MAX at *; split <;> omega

theorem subSize_one (i : Nat) (h1 : 1 ≤ i) (h2 : i < SIZE_MOD) : subSize i 1 = i - 1 := by
  unfold subSize SIZE_MOD at *; omega

theorem toSizeT_eq_iff (a : Int) (i : Nat) (ha : NA_INTEGER ≤ a) (ha2 : a ≤ INT_MAX)
    (hi : (i : Int) ≤ INT_MAX) : toSizeT a = i ↔ a = (i : Int) := by
  unfold toSizeT SIZE_MOD NA_INTEGER INT_MAX at *; omega

theorem toInt_toSizeT (a : Int) (ha : NA_INTEGER ≤ a) (ha2 : a ≤ INT_MAX) :
    toInt (toSizeT a) = a := by
  unfold toInt toSizeT INT_MOD SIZE_MOD NA_INTEGER INT_MAX at *; split <;> omega

theorem readAt_ok (v : List Int) (k : Nat) (h : k < v.length) :
    readAt v k = .ok (v.getD k 0) := by
  unfold readAt; simp [h, List.getD_eq_getElem]

theorem writeAt_ok (v : List Int) (k : Nat) (a : Int) (h : k < v.length) :
    writeAt v k a = .ok (v.set k a) := by
  unfold writeAt; simp [h]

theorem forLoop_zero {σ : Type} (body : Nat → σ → Result σ) (init : σ) :
    forLoop 0 body init = .ok init := by
  simp [forLoop, pure, Except.pure]

theorem forLoop_succ {σ : Type} (n : Nat) (body : Nat → σ → Result σ) (init : σ) :
    forLoop (n + 1) body init = (forLoop n body init >>= body n) := by
  simp [forLoop, List.range_succ, List.foldlM_append]

/-- Loop rule: an invariant that holds initially and is re-established by every
iteration (which must not fail) holds for the value the loop returns. -/
theorem forLoop_inv {σ : Type} (inv : Nat → σ → Prop) (n : Nat)
    (body : Nat → σ → Result σ) (init : σ) (h0 : inv 0 init)
    (hstep : ∀ j st, j < n → inv j st → ∃ st', body j st = .ok st' ∧ inv (j + 1) st') :
    ∃ st, forLoop n body init = .ok st ∧ inv n st := by
  induction n with
  | zero => exact ⟨init, forLoop_zero body init, h0⟩
  | succ n ih =>
    obtain ⟨st, hst, hinv⟩ := ih (fun j st hj h => hstep j st (by omega) h)
    obtain ⟨st', hb, hinv'⟩ := hstep n st (by omega) hinv
    refine ⟨st', ?_, hinv'⟩
    rw [forLoop_succ, hst]
    exact hb

theorem ok_bind {α β : Type} (a : α) (f : α → Result β) :
    ((Except.ok a : Result α) >>= f) = f a := rfl

theorem filter_range_succ (p : Nat → Bool) (j : Nat) :
    (List.range (j + 1)).filter p
      = (List.range j).filter p ++ (if p j = true then [j] else []) := by
  rw [List.range_succ, List.filter_append]
  by_cases h : p j = true <;> simp [List.filter, h]

/-- Closed form of `cpp_are_possible_ancestors` on a case of the tree. -/
theorem possible_ancestors_eq (t_inf : List Int) (i : Nat)
    (hN : (t_inf.length : Int) ≤ INT_MAX) (hi : IsCase t_inf.length i) :
    cpp_are_possible_ancestors t_inf i
      = .ok (((List.range t_inf.length).filter
          (fun j => decide (t_inf.getD j 0 < t_inf.getD (i - 1) 0))).map
            (fun j => ((j + 1 : Nat) : Int))) := by
  obtain ⟨h1, h2⟩ := hi
  have hsub : subSize i 1 = i - 1 := by
    apply subSize_one i h1; unfold SIZE_MOD; unfold INT_MAX at hN; omega
  obtain ⟨st, hst, hinv⟩ := forLoop_inv
    (fun j out => out = (((List.range j).filter
          (fun j => decide (t_inf.getD j 0 < t_inf.getD (i - 1) 0))).map
            (fun j => ((j + 1 : Nat) : Int))))
    t_inf.length
    (fun j out => do
      let tj ← readAt t_inf j
      let ti ← readAt t_inf (subSize i 1)
      if tj < ti then
        pure (out ++ [toInt (j + 1)])
      else
        pure out) [] (by simp)
    (by
      intro j st hj hinv
      have hj1 : toInt (j + 1) = ((j + 1 : Nat) : Int) := by
        apply toInt_small; unfold INT_MAX at *; omega
      beta_reduce
      rw [readAt_ok t_inf j hj, hsub, readAt_ok t_inf (i - 1) (by omega), filter_range_succ,
        List.map_append, ← hinv]
      show ∃ st', (if t_inf.getD j 0 < t_inf.getD (i - 1) 0
          then pure (st ++ [toInt (j + 1)]) else pure st) = Except.ok st' ∧ _
      by_cases hlt : t_inf.getD j 0 < t_inf.getD (i - 1) 0
      · rw [if_pos hlt, if_pos (decide_eq_true hlt), hj1]
        exact ⟨_, rfl, rfl⟩
      · rw [if_neg hlt, if_neg (by simpa using hlt)]
        exact ⟨_, rfl, by simp⟩)
  unfold cpp_are_possible_ancestors
  simp only []
  rw [hst, hinv]

theorem pairwise_lt_filter_range_succ (p : Nat → Bool) (n : Nat) :
    (((List.range n).filter p).map (fun j => j + 1)).Pairwise (fun a b => a < b) := by
  rw [List.pairwise_map]
  apply List.Pairwise.sublist (List.filter_sublist _)
  apply List.Pairwise.imp _ (List.pairwise_lt_range n)
  intro a b h; omega

theorem mem_filter_range_succ (p : Nat → Bool) (n k : Nat) :
    k ∈ ((List.range n).filter p).map (fun j => j + 1)
      ↔ IsCase n k ∧ p (k - 1) = true := by
  simp only [List.mem_map, List.mem_filter, List.mem_range, IsCase]
  constructor
  · rintro ⟨j, ⟨hj, hp⟩, rfl⟩
    exact ⟨⟨by omega, by omega⟩, by simpa using hp⟩
  · rintro ⟨⟨h1, h2⟩, hp⟩
    exact ⟨k - 1, ⟨by omega, hp⟩, by omega⟩

theorem filled_init (total : Nat) : Filled [] total (List.replicate total 0, 0) := by
  simp [Filled]

theorem set_append_replicate (L : List Int) (m : Nat) (v : Int) :
    (L ++ List.replicate (m + 1) 0).set L.length v = (L ++ [v]) ++ List.replicate m 0 := by
  induction L with
  | nil => simp [List.replicate_succ]
  | cons a L ih => simpa using ih

/-- Writing at the counter of a fill loop appends to the filled part. -/
theorem filled_push (L : List Int) (total : Nat) (st : List Int × Nat) (v : Int)
    (h : Filled L total st) (hlt : L.length < total) :
    ∃ out, writeAt st.1 st.2 v = .ok out ∧ Filled (L ++ [v]) total (out, st.2 + 1) := by
  obtain ⟨h1, h2, h3⟩ := h
  have hm : total - L.length = (total - (L.length + 1)) + 1 := by omega
  refine ⟨(L ++ [v]) ++ List.replicate (total - (L.length + 1)) 0, ?_, ?_⟩
  · rw [writeAt_ok _ _ _ (by rw [h3, h1]; simp; omega), h3, h1, hm, set_append_replicate]
  · refine ⟨by simp [h1], by simp; omega, by simp⟩

theorem filled_full (L : List Int) (st : List Int × Nat) (h : Filled L L.length st) :
    st.1 = L := by
  obtain ⟨_, _, h3⟩ := h
  simpa using h3

theorem length_filter_range_lt (p : Nat → Bool) (j n : Nat) (hj : j < n) (hp : p j = true) :
    ((List.range j).filter p).length < ((List.range n).filter p).length := by
  have hsub : ((List.range (j + 1)).filter p).Sublist ((List.range n).filter p) :=
    List.Sublist.filter p (List.range_sublist.2 (by omega))
  have := hsub.length_le
  rw [filter_range_succ, if_pos hp] at this
  simp at this
  omega

/-- Closed form of `cpp_find_descendents`, for every vector and every `i`. -/
theorem find_descendents_eq (alpha : List Int) (i : Nat)
    (hN : (alpha.length : Int) ≤ INT_MAX) :
    cpp_find_descendents alpha i
      = .ok ((descSlots alpha i).map (fun j => ((j + 1 : Nat) : Int))) := by
  obtain ⟨n, hn, hninv⟩ := forLoop_inv
    (fun j n => n = ((List.range j).filter
        (fun j => decide (toSizeT (alpha.getD j 0) = i))).length)
    alpha.length
    (fun j n => do
      let aj ← readAt alpha j
      if toSizeT aj = i then pure (n + 1) else pure n) 0 (by simp)
    (by
      intro j st hj hinv
      beta_reduce
      rw [readAt_ok alpha j hj, filter_range_succ]
      show ∃ st', (if toSizeT (alpha.getD j 0) = i then pure (st + 1) else pure st)
        = Except.ok st' ∧ _
      by_cases hp : toSizeT (alpha.getD j 0) = i
      · rw [if_pos hp, if_pos (decide_eq_true hp)]
        exact ⟨_, rfl, by simp [hinv]⟩
      · rw [if_neg hp, if_neg (by simpa using hp)]
        exact ⟨_, rfl, by simp [hinv]⟩)
  obtain ⟨r, hr, hrinv⟩ := forLoop_inv
    (fun j st => Filled (((List.range j).filter
        (fun j => decide (toSizeT (alpha.getD j 0) = i))).map
          (fun j => ((j + 1 : Nat) : Int))) n st)
    alpha.length
    (fun j (st : List Int × Nat) => do
      let aj ← readAt alpha j
      if toSizeT aj = i then
        let out ← writeAt st.1 st.2 (toInt (j + 1))
        pure (out, st.2 + 1)
      else
        pure st) (List.replicate n 0, 0) (filled_init n)
    (by
      intro j st hj hinv
      have hj1 : toInt (j + 1) = ((j + 1 : Nat) : Int) := by
        apply toInt_small; unfold INT_MAX at *; omega
      beta_reduce
      rw [readAt_ok alpha j hj, filter_range_succ]
      show ∃ st', (if toSizeT (alpha.getD j 0) = i then
          (writeAt st.1 st.2 (toInt (j + 1)) >>= fun out => pure (out, st.2 + 1))
          else pure st) = Except.ok st' ∧ _
      by_cases hp : toSizeT (alpha.getD j 0) = i
      · rw [if_pos hp, if_pos (decide_eq_true hp)]
        have hlt := length_filter_range_lt
          (fun j => decide (toSizeT (alpha.getD j 0) = i)) j alpha.length hj
          (decide_eq_true hp)
        rw [← hninv] at hlt
        obtain ⟨out, hw, hf⟩ := filled_push _ n st (toInt (j + 1)) hinv (by simpa using hlt)
        rw [hw]
        refine ⟨_, rfl, ?_⟩
        rw [List.map_append]
        rw [hj1] at hf
        exact hf
      · rw [if_neg hp, if_neg (by simpa using hp)]
        exact ⟨_, rfl, by simpa using hinv⟩)
  unfold cpp_find_descendents
  rw [hn]
  show (forLoop alpha.length _ (List.replicate n 0, 0) >>= fun r => pure r.1) = _
  rw [hr]
  have hlen : n = (((List.range alpha.length).filter
        (fun j => decide (toSizeT (alpha.getD j 0) = i))).map
          (fun j => ((j + 1 : Nat) : Int))).length := by
    simp [hninv]
  rw [hlen] at hrinv
  have := filled_full _ r hrinv
  show Except.ok r.1 = _
  rw [this]
  rfl

theorem map_getD_range (v : List Int) :
    (List.range v.length).map (fun j => v.getD j 0) = v := by
  apply List.ext_getElem
  · simp
  · intro n h1 h2
    simp [List.getElem?_eq_getElem h2]

theorem length_filter_range_eq_countP (v : List Int) (p : Int → Bool) :
    ((List.range v.length).filter (fun j => p (v.getD j 0))).length = v.countP p := by
  conv_rhs => rw [← map_getD_range v]
  rw [List.countP_map, List.countP_eq_length_filter]
  rfl

theorem getD_mem (v : List Int) (j : Nat) (h : j < v.length) : v.getD j 0 ∈ v := by
  rw [List.getD_eq_getElem _ _ h]
  exact List.getElem_mem h

/-- On a vector of `int`s and a case `i`, the comparison `alpha[j] == i` is
equality of integers. -/
theorem descSlots_eq (alpha : List Int) (i : Nat) (hV : IsIntegerVector alpha)
    (hi : (i : Int) ≤ INT_MAX) :
    descSlots alpha i
      = (List.range alpha.length).filter (fun j => decide (alpha.getD j 0 = (i : Int))) := by
  unfold descSlots
  apply List.filter_congr
  intro j hj
  have hj := List.mem_range.1 hj
  obtain ⟨h1, h2⟩ := hV.2 _ (getD_mem alpha j hj)
  have := toSizeT_eq_iff (alpha.getD j 0) i h1 h2 hi
  exact decide_eq_decide.2 this

theorem take_succ_getD (src : List Int) (j : Nat) (hj : j < src.length) :
    src.take (j + 1) = src.take j ++ [src.getD j 0] := by
  rw [List.take_succ, List.getD_eq_getElem _ _ hj, List.getElem?_eq_getElem hj]
  rfl

theorem filter_take_succ (src : List Int) (q : Int → Bool) (j : Nat) (hj : j < src.length) :
    (src.take (j + 1)).filter q
      = (src.take j).filter q ++ (if q (src.getD j 0) = true then [src.getD j 0] else []) := by
  rw [take_succ_getD src j hj, List.filter_append]
  generalize src.getD j 0 = d
  by_cases h : q d = true <;> simp [List.filter, h]

theorem length_filter_take_le (src : List Int) (q : Int → Bool) (j : Nat) :
    ((src.take j).filter q).length ≤ (src.filter q).length :=
  (List.Sublist.filter q (List.take_sublist j src)).length_le

/-- A loop that copies the entries of `src` satisfying `q` to the counter of a
fill loop appends them to the filled part, provided the vector has room. -/
theorem forLoop_copy_filter (src : List Int) (q : Int → Prop) [DecidablePred q]
    (pre : List Int) (total : Nat) (st0 : List Int × Nat) (h0 : Filled pre total st0)
    (hroom : pre.length + (src.filter (fun d => decide (q d))).length ≤ total) :
    ∃ st, forLoop src.length (fun j (st : List Int × Nat) => do
        let d ← readAt src j
        if q d then
          let out ← writeAt st.1 st.2 d
          pure (out, st.2 + 1)
        else
          pure st) st0 = .ok st ∧
      Filled (pre ++ src.filter (fun d => decide (q d))) total st := by
  obtain ⟨st, hst, hinv⟩ := forLoop_inv
    (fun j st => Filled (pre ++ (src.take j).filter (fun d => decide (q d))) total st)
    src.length
    (fun j (st : List Int × Nat) => do
        let d ← readAt src j
        if q d then
          let out ← writeAt st.1 st.2 d
          pure (out, st.2 + 1)
        else
          pure st) st0 (by simpa using h0)
    (by
      intro j st hj hinv
      beta_reduce
      rw [readAt_ok src j hj, filter_take_succ src _ j hj]
      show ∃ st', (if q (src.getD j 0) then
          (writeAt st.1 st.2 (src.getD j 0) >>= fun out => pure (out, st.2 + 1))
          else pure st) = Except.ok st' ∧ _
      by_cases hq : q (src.getD j 0)
      · rw [if_pos hq, if_pos (decide_eq_true hq)]
        have hle := length_filter_take_le src (fun d => decide (q d)) (j + 1)
        rw [filter_take_succ src _ j hj, if_pos (decide_eq_true hq)] at hle
        obtain ⟨out, hw, hf⟩ := filled_push _ total st (src.getD j 0) hinv
          (by simp at hle ⊢; omega)
        rw [hw]
        refine ⟨_, rfl, ?_⟩
        rw [← List.append_assoc]
        exact hf
      · rw [if_neg hq, if_neg (by simpa using hq)]
        exact ⟨_, rfl, by simpa using hinv⟩)
  refine ⟨st, hst, ?_⟩
  simpa using hinv

/-- A loop that copies all entries of `src` to the counter of a fill loop. -/
theorem forLoop_copy (src : List Int) (pre : List Int) (total : Nat)
    (st0 : List Int × Nat) (h0 : Filled pre total st0)
    (hroom : pre.length + src.length ≤ total) :
    ∃ st, forLoop src.length (fun j (st : List Int × Nat) => do
        let d ← readAt src j
        let out ← writeAt st.1 st.2 d
        pure (out, st.2 + 1)) st0 = .ok st ∧
      Filled (pre ++ src) total st := by
  obtain ⟨st, hst, hinv⟩ := forLoop_inv
    (fun j st => Filled (pre ++ src.take j) total st)
    src.length
    (fun j (st : List Int × Nat) => do
        let d ← readAt src j
        let out ← writeAt st.1 st.2 d
        pure (out, st.2 + 1)) st0 (by simpa using h0)
    (by
      intro j st hj hinv
      beta_reduce
      rw [readAt_ok src j hj, take_succ_getD src j hj]
      show ∃ st', (writeAt st.1 st.2 (src.getD j 0) >>= fun out => pure (out, st.2 + 1))
        = Except.ok st' ∧ _
      obtain ⟨out, hw, hf⟩ := filled_push _ total st (src.getD j 0) hinv
        (by simp; omega)
      rw [hw]
      refine ⟨_, rfl, ?_⟩
      rw [← List.append_assoc]
      exact hf)
  refine ⟨st, hst, ?_⟩
  simpa using hinv

theorem find_descendents_ok (alpha : List Int) (i : Nat)
    (hN : (alpha.length : Int) ≤ INT_MAX) :
    cpp_find_descendents alpha i = .ok (descCases alpha i) :=
  find_descendents_eq alpha i hN

theorem descSlots_nodup (alpha : List Int) (i : Nat) : (descSlots alpha i).Nodup :=
  (List.nodup_range alpha.length).filter _

theorem descSlots_lt (alpha : List Int) (i j : Nat) (h : j ∈ descSlots alpha i) :
    j < alpha.length :=
  List.mem_range.1 (List.mem_filter.1 h).1

/-- The slot of `i` is among the slots whose entry equals the entry of `i`. -/
theorem self_mem_descSlots (alpha : List Int) (i : Nat) (hi : IsCase alpha.length i) :
    i - 1 ∈ descSlots alpha (toSizeT (alpha.getD (i - 1) 0)) := by
  unfold descSlots
  rw [List.mem_filter]
  exact ⟨List.mem_range.2 (by have := hi.1; have := hi.2; omega), decide_eq_true rfl⟩

/-- Removing `i` from the descendents of its ancestor removes exactly its slot. -/
theorem descCases_filter_ne (alpha : List Int) (x i : Nat)
    (hN : (alpha.length : Int) ≤ INT_MAX) (hi : IsCase alpha.length i) :
    (descCases alpha x).filter (fun d => decide (toSizeT d ≠ i))
      = ((descSlots alpha x).erase (i - 1)).map (fun j => ((j + 1 : Nat) : Int)) := by
  unfold descCases
  rw [(descSlots_nodup alpha x).erase_eq_filter, List.filter_map]
  congr 1
  apply List.filter_congr
  intro j hj
  have hj := descSlots_lt alpha x j hj
  have h1 := hi.1
  have hs : toSizeT ((j + 1 : Nat) : Int) = j + 1 := by
    apply toSizeT_nat; unfold SIZE_MOD; unfold INT_MAX at hN; omega
  show decide (toSizeT ((j + 1 : Nat) : Int) ≠ i) = (j != i - 1)
  rw [hs]
  by_cases h : j = i - 1
  · have h2 : j + 1 = i := by omega
    simp [h, h2]
    omega
  · have h2 : j + 1 ≠ i := by omega
    simp [h, h2]

theorem length_descCases_filter_ne (alpha : List Int) (i : Nat)
    (hN : (alpha.length : Int) ≤ INT_MAX) (hi : IsCase alpha.length i) :
    ((descCases alpha (toSizeT (alpha.getD (i - 1) 0))).filter
        (fun d => decide (toSizeT d ≠ i))).length + 1
      = (descCases alpha (toSizeT (alpha.getD (i - 1) 0))).length := by
  rw [descCases_filter_ne alpha _ i hN hi, List.length_map,
    List.length_erase_of_mem (self_mem_descSlots alpha i hi)]
  unfold descCases
  rw [List.length_map]
  have := List.length_pos_of_mem (self_mem_descSlots alpha i hi)
  omega

/-- Closed form of `cpp_find_local_cases` on a case of the tree. -/
theorem find_local_cases_eq (alpha : List Int) (i : Nat)
    (hN : (alpha.length : Int) ≤ INT_MAX) (hi : IsCase alpha.length i) :
    cpp_find_local_cases alpha i = .ok (
      if alpha.getD (i - 1) 0 ≠ NA_INTEGER then
        [(i : Int)] ++ descCases alpha i ++ [alpha.getD (i - 1) 0] ++
          (descCases alpha (toSizeT (alpha.getD (i - 1) 0))).filter
            (fun d => decide (toSizeT d ≠ i))
      else [(i : Int)] ++ descCases alpha i) := by
  have h1 := hi.1
  have h2 := hi.2
  have hsub : subSize i 1 = i - 1 := by
    apply subSize_one i h1; unfold SIZE_MOD; unfold INT_MAX at hN; omega
  have hti : toInt i = (i : Int) := by
    apply toInt_small; unfold INT_MAX at *; omega
  have hlen := length_descCases_filter_ne alpha i hN hi
  unfold cpp_find_local_cases
  rw [find_descendents_ok alpha i hN, hsub, readAt_ok alpha (i - 1) (by omega), hti]
  simp only [ok_bind]
  rw [find_descendents_ok alpha _ hN]
  simp only [ok_bind]
  generalize hai : alpha.getD (i - 1) 0 = ai at hlen ⊢
  generalize hDi : descCases alpha i = Di
  generalize hDx : descCases alpha (toSizeT ai) = Dx at hlen ⊢
  generalize hn : (if ai ≠ NA_INTEGER then Di.length + 1 + Dx.length else Di.length + 1) = n
  have hnpos : Di.length + 1 ≤ n := by
    rw [← hn]; split <;> omega
  obtain ⟨out1, hw1, hf1⟩ := filled_push [] n (List.replicate n 0, 0) (i : Int)
    (filled_init n) (by simp; omega)
  simp only [List.nil_append] at hf1
  obtain ⟨st, hA, hfA⟩ := forLoop_copy Di [(i : Int)] n (out1, 0 + 1) hf1
    (by simp; omega)
  rw [hw1]
  simp only [ok_bind]
  rw [hA]
  simp only [ok_bind]
  by_cases hna : ai ≠ NA_INTEGER
  · rw [if_pos hna, if_pos hna]
    rw [if_pos hna] at hn
    obtain ⟨out2, hw2, hf2⟩ := filled_push _ n st ai hfA (by simp; omega)
    obtain ⟨st', hB, hfB⟩ := forLoop_copy_filter Dx (fun d => toSizeT d ≠ i)
      ([(i : Int)] ++ Di ++ [ai]) n (out2, st.2 + 1) hf2
      (by simp only [List.length_append, List.length_cons, List.length_nil]; omega)
    rw [hw2]
    simp only [ok_bind]
    rw [hB]
    simp only [ok_bind]
    have hfull : n = ([(i : Int)] ++ Di ++ [ai]
        ++ Dx.filter (fun d => decide (toSizeT d ≠ i))).length := by
      simp only [List.length_append, List.length_cons, List.length_nil]; omega
    rw [hfull] at hfB
    rw [filled_full _ st' hfB]
    rfl
  · rw [if_neg hna, if_neg hna]
    rw [if_neg hna] at hn
    have hfull : n = ([(i : Int)] ++ Di).length := by
      simp; omega
    rw [hfull] at hfA
    rw [filled_full _ st hfA]
    rfl

theorem wellFormedAlpha_isIntegerVector (alpha : List Int) (h : WellFormedAlpha alpha) :
    IsIntegerVector alpha := by
  refine ⟨h.1, ?_⟩
  intro a ha
  have hlen := h.1
  rcases h.2 a ha with h | ⟨h1, h2⟩
  · rw [h]; decide
  · unfold NA_INTEGER; unfold INT_MAX at *; omega

/-- Entry of a case in a well-formed ancestry vector. -/
theorem wellFormed_caseValue (alpha : List Int) (h : WellFormedAlpha alpha) (k : Nat)
    (hk : IsCase alpha.length k) :
    caseValue alpha k = NA_INTEGER ∨
      (1 ≤ caseValue alpha k ∧ caseValue alpha k ≤ (alpha.length : Int)) :=
  h.2 _ (getD_mem alpha (k - 1) (by have := hk.1; have := hk.2; omega))

/-- On the cases reported by `cpp_find_descendents`, the comparison
`desc_alpha_i[j] != i` is inequality of integers. -/
theorem descCases_filter_int (alpha : List Int) (x i : Nat)
    (hN : (alpha.length : Int) ≤ INT_MAX) :
    (descCases alpha x).filter (fun d => decide (toSizeT d ≠ i))
      = (descCases alpha x).filter (fun d => decide (d ≠ (i : Int))) := by
  apply List.filter_congr
  intro d hd
  unfold descCases at hd
  obtain ⟨j, hj, rfl⟩ := List.mem_map.1 hd
  have hj := descSlots_lt alpha x j hj
  have hs : toSizeT ((j + 1 : Nat) : Int) = j + 1 := by
    apply toSizeT_nat; unfold SIZE_MOD; unfold INT_MAX at hN; omega
  apply decide_eq_decide.2
  rw [hs]
  omega

theorem ancestorOf_NA (alpha : List Int) : ancestorOf alpha NA_INTEGER = NA_INTEGER := by
  unfold ancestorOf
  rw [if_neg]
  unfold NA_INTEGER
  omega

theorem ancestorOf_iterate_NA (alpha : List Int) (n : Nat) :
    (ancestorOf alpha)^[n] NA_INTEGER = NA_INTEGER :=
  Function.iterate_fixed (ancestorOf_NA alpha) n

theorem ancestorOf_case (alpha : List Int) (k : Nat) (hk : IsCase alpha.length k) :
    ancestorOf alpha (k : Int) = caseValue alpha k := by
  unfold ancestorOf caseValue
  rw [if_pos ⟨by have := hk.1; omega, by have := hk.2; omega⟩]
  congr 1
  omega

theorem ancestorOf_imported (alpha : List Int) (a : Int) (h : IsImported alpha a) :
    ancestorOf alpha a = NA_INTEGER := by
  unfold ancestorOf
  rw [if_pos ⟨h.1, h.2.1⟩]
  exact h.2.2

/-- In a forest every case reaches the imported marker, and stays there. -/
theorem noCycles_reaches (alpha : List Int) (h : NoCycles alpha) (k : Nat)
    (hk : IsCase alpha.length k) :
    ∃ n : Nat, ∀ t, n ≤ t → (ancestorOf alpha)^[t] (k : Int) = NA_INTEGER := by
  obtain ⟨n, hn⟩ := h k hk
  refine ⟨n + 1, ?_⟩
  intro t ht
  obtain ⟨d, rfl⟩ : ∃ d, t = d + (n + 1) := ⟨t - (n + 1), by omega⟩
  rw [Function.iterate_add_apply, Function.iterate_succ_apply', ancestorOf_imported alpha _ hn,
    ancestorOf_iterate_NA]

/-- A forest has no cycle: no case is its own ancestor after `m > 0` steps. -/
theorem noCycles_iterate_ne (alpha : List Int) (h : NoCycles alpha) (k : Nat)
    (hk : IsCase alpha.length k) (m : Nat) (hm : 0 < m) :
    (ancestorOf alpha)^[m] (k : Int) ≠ (k : Int) := by
  intro hper
  obtain ⟨n, hn⟩ := noCycles_reaches alpha h k hk
  have h1 : (ancestorOf alpha)^[m * n] (k : Int) = (k : Int) := by
    rw [Function.iterate_mul]
    exact Function.iterate_fixed hper n
  have h2 := hn (m * n) (Nat.le_mul_of_pos_left n hm)
  rw [h1] at h2
  have := hk.1
  unfold NA_INTEGER at h2
  omega

theorem nodup_four (a b : Int) (D F : List Int) (hD : D.Nodup) (hF : F.Nodup)
    (h1 : a ∉ D) (h2 : a ≠ b) (h3 : a ∉ F) (h4 : b ∉ D) (h5 : b ∉ F)
    (h6 : ∀ d ∈ D, d ∉ F) : ([a] ++ D ++ [b] ++ F).Nodup := by
  simp only [List.nodup_append, List.nodup_cons, List.Disjoint, List.mem_append,
    List.mem_singleton, List.not_mem_nil, List.nodup_nil, not_false_eq_true, true_and]
  refine ⟨⟨⟨hD, ?_⟩, ?_⟩, hF, ?_⟩
  · rintro c rfl; exact h1
  · rintro c (rfl | hc) rfl
    · exact h2 rfl
    · exact h4 hc
  · rintro c ((rfl | hc) | rfl)
    · exact h3
    · exact h6 c hc
    · exact h5

theorem nodup_two (a : Int) (D : List Int) (hD : D.Nodup) (h1 : a ∉ D) :
    ([a] ++ D).Nodup := by
  simpa using ⟨h1, hD⟩

theorem descCases_nodup (alpha : List Int) (x : Nat) : (descCases alpha x).Nodup := by
  unfold descCases
  apply List.Nodup.map _ (descSlots_nodup alpha x)
  intro a b h
  simp only at h
  omega

/-- Membership in the descendents reported for a case `x`. -/
theorem mem_descCases (alpha : List Int) (x : Nat) (hV : IsIntegerVector alpha)
    (hx : (x : Int) ≤ INT_MAX) (d : Int) :
    d ∈ descCases alpha x
      ↔ ∃ k : Nat, IsCase alpha.length k ∧ d = (k : Int) ∧ caseValue alpha k = (x : Int) := by
  unfold descCases
  rw [descSlots_eq alpha x hV hx, List.mem_map]
  constructor
  · rintro ⟨j, hj, rfl⟩
    obtain ⟨hj1, hj2⟩ := List.mem_filter.1 hj
    have hj1 := List.mem_range.1 hj1
    refine ⟨j + 1, ⟨by omega, by omega⟩, rfl, ?_⟩
    unfold caseValue
    exact of_decide_eq_true hj2
  · rintro ⟨k, ⟨hk1, hk2⟩, rfl, hv⟩
    refine ⟨k - 1, List.mem_filter.2 ⟨List.mem_range.2 (by omega), decide_eq_true hv⟩, ?_⟩
    have : k - 1 + 1 = k := by omega
    rw [this]

theorem getD_zip_mem (l1 l2 : List Int) (j : Nat) (h1 : j < l1.length) (h2 : j < l2.length) :
    (l1.getD j 0, l2.getD j 0) ∈ List.zip l1 l2 := by
  have hz : j < (List.zip l1 l2).length := by
    rw [List.length_zip]; omega
  have := List.getElem_mem hz
  rw [List.getElem_zip] at this
  rw [List.getD_eq_getElem _ _ h1, List.getD_eq_getElem _ _ h2]
  exact this

/-- A valid sequence index of a well-formed dataset. -/
theorem wellFormedData_index (data : Data) (hW : WellFormedData data) (k : Nat)
    (hk : IsCase data.has_dna.length k) (hflag : caseValue data.has_dna k ≠ 0) :
    1 ≤ caseValue data.id_in_dna k ∧ caseValue data.id_in_dna k ≤ (data.D.nrow : Int) := by
  obtain ⟨_, hlen, _, _, _, _, hz⟩ := hW
  have h1 := hk.1
  have h2 := hk.2
  exact hz _ (getD_zip_mem data.has_dna data.id_in_dna (k - 1) (by omega) (by omega)) hflag

/-- Reading the matrix at two valid sequence indices. -/
theorem matrix_entry_ok (D : IntegerMatrix) (a b : Int) (hcol : D.ncol = D.nrow)
    (hrow : (D.nrow : Int) ≤ INT_MAX) (hlen : D.entries.length = D.nrow * D.ncol)
    (ha1 : 1 ≤ a) (ha2 : a ≤ (D.nrow : Int)) (hb1 : 1 ≤ b) (hb2 : b ≤ (D.nrow : Int)) :
    D.entry (toSizeT (a - 1)) (toSizeT (b - 1)) = .ok (matrixValue D a.toNat b.toNat) := by
  have hta : toInt (toSizeT (a - 1)) = a - 1 := by
    apply toInt_toSizeT
    · unfold NA_INTEGER; omega
    · unfold INT_MAX at *; omega
  have htb : toInt (toSizeT (b - 1)) = b - 1 := by
    apply toInt_toSizeT
    · unfold NA_INTEGER; omega
    · unfold INT_MAX at *; omega
  obtain ⟨a', rfl⟩ : ∃ a' : Nat, a = (a' : Int) := ⟨a.toNat, by omega⟩
  obtain ⟨b', rfl⟩ : ∃ b' : Nat, b = (b' : Int) := ⟨b.toNat, by omega⟩
  have ha1' : 1 ≤ a' := by omega
  have ha2' : a' ≤ D.nrow := by omega
  have hb1' : 1 ≤ b' := by omega
  have hb2' : b' ≤ D.nrow := by omega
  have hoff : ((a' : Int) - 1) + (D.nrow : Int) * ((b' : Int) - 1)
      = (((a' - 1) + D.nrow * (b' - 1) : Nat) : Int) := by
    push_cast [Nat.cast_sub ha1', Nat.cast_sub hb1']
    ring
  have hbound : (a' - 1) + D.nrow * (b' - 1) < D.entries.length := by
    rw [hlen, hcol]
    calc (a' - 1) + D.nrow * (b' - 1) < D.nrow + D.nrow * (b' - 1) := by omega
      _ = D.nrow * (b' - 1 + 1) := by ring
      _ ≤ D.nrow * D.nrow := Nat.mul_le_mul_left _ (by omega)
  unfold IntegerMatrix.entry
  simp only [hta, htb, hoff]
  rw [if_pos (by omega), Int.toNat_ofNat, readAt_ok _ _ hbound]
  simp [matrixValue]

theorem matrixValue_range (data : Data) (hW : WellFormedData data) (a b : Nat) :
    0 ≤ matrixValue data.D a b ∧ matrixValue data.D a b ≤ INT_MAX := by
  obtain ⟨_, _, _, _, _, hent, _⟩ := hW
  unfold matrixValue
  by_cases h : (a - 1) + data.D.nrow * (b - 1) < data.D.entries.length
  · exact hent _ (getD_mem _ _ h)
  · rw [List.getD_eq_default _ _ (by omega)]
    decide

/-- Closed form of `cpp_get_n_mutations` on a well-formed dataset. -/
theorem get_n_mutations_eq (data : Data) (i j : Nat) (hW : WellFormedData data)
    (hi : IsCase data.has_dna.length i) (hj : IsCase data.has_dna.length j) :
    cpp_get_n_mutations data i j
      = if caseValue data.has_dna i ≠ 0 ∧ caseValue data.has_dna j ≠ 0 then
          .ok (toSizeT (matrixValue data.D (caseValue data.id_in_dna i).toNat
            (caseValue data.id_in_dna j).toNat))
        else .error (.stop .missingSequences) := by
  have hN := hW.1
  have hlen := hW.2.1
  have hi1 := hi.1
  have hi2 := hi.2
  have hj1 := hj.1
  have hj2 := hj.2
  have hsi : subSize i 1 = i - 1 := by
    apply subSize_one i hi1; unfold SIZE_MOD; unfold INT_MAX at hN; omega
  have hsj : subSize j 1 = j - 1 := by
    apply subSize_one j hj1; unfold SIZE_MOD; unfold INT_MAX at hN; omega
  unfold cpp_get_n_mutations
  rw [hsi, hsj, readAt_ok _ (i - 1) (by omega), readAt_ok data.has_dna (j - 1) (by omega),
    readAt_ok data.id_in_dna (i - 1) (by omega), readAt_ok data.id_in_dna (j - 1) (by omega)]
  simp only [ok_bind]
  unfold caseValue
  by_cases h1 : data.has_dna.getD (i - 1) 0 ≠ 0
  · by_cases h2 : data.has_dna.getD (j - 1) 0 ≠ 0
    · obtain ⟨a1, a2⟩ := wellFormedData_index data hW i hi h1
      obtain ⟨b1, b2⟩ := wellFormedData_index data hW j hj h2
      unfold caseValue at a1 a2 b1 b2
      rw [if_pos h1, if_pos ⟨h1, h2⟩,
        matrix_entry_ok data.D _ _ hW.2.2.1 hW.2.2.2.1 hW.2.2.2.2.1 a1 a2 b1 b2]
      change (if (!decide (data.has_dna.getD (j - 1) 0 ≠ 0)) = true then _ else _) = _
      rw [if_neg (by simpa using h2)]
      rfl
    · rw [if_pos h1, if_neg (fun h => h2 h.2)]
      change (if (!decide (data.has_dna.getD (j - 1) 0 ≠ 0)) = true then _ else _) = _
      rw [if_pos (by simpa using h2)]
  · rw [if_neg h1, if_neg (fun h => h1 h.1)]
    rfl

theorem drop_eq_getD_cons (v : List Int) (j : Nat) (hj : j < v.length) :
    v.drop j = v.getD j 0 :: v.drop (j + 1) := by
  rw [List.getD_eq_getElem _ _ hj]
  exact List.drop_eq_getElem_cons hj

theorem set_length_append_cons (A B : List Int) (a v : Int) :
    (A ++ a :: B).set A.length v = A ++ v :: B := by
  induction A with
  | nil => rfl
  | cons c A ih => simp [ih]

/-- The relinking loop of `cpp_swap_cases` maps `relink` over the ancestry vector. -/
theorem forLoop_relink (alpha : List Int) (i x : Nat) :
    forLoop alpha.length (fun j alpha_out => do
        let aj ← readAt alpha j
        if toSizeT aj = i then
          writeAt alpha_out j (toInt x)
        else if toSizeT aj = x then
          writeAt alpha_out j (toInt i)
        else
          pure alpha_out) alpha = .ok (alpha.map (relink i x)) := by
  obtain ⟨st, hst, hinv⟩ := forLoop_inv
    (fun j out => out = (alpha.take j).map (relink i x) ++ alpha.drop j)
    alpha.length
    (fun j alpha_out => do
        let aj ← readAt alpha j
        if toSizeT aj = i then
          writeAt alpha_out j (toInt x)
        else if toSizeT aj = x then
          writeAt alpha_out j (toInt i)
        else
          pure alpha_out) alpha (by simp)
    (by
      intro j st hj hinv
      beta_reduce
      have hlen : ((alpha.take j).map (relink i x)).length = j := by
        rw [List.length_map, List.length_take]; omega
      have hstlen : j < st.length := by
        rw [hinv, List.length_append, hlen, List.length_drop]; omega
      have hset : ∀ v, st.set j v
          = (alpha.take j).map (relink i x) ++ v :: alpha.drop (j + 1) := by
        intro v
        rw [hinv, drop_eq_getD_cons alpha j hj]
        have h := set_length_append_cons ((alpha.take j).map (relink i x))
          (alpha.drop (j + 1)) (alpha.getD j 0) v
        rw [hlen] at h
        exact h
      have hgoal : (alpha.take (j + 1)).map (relink i x) ++ alpha.drop (j + 1)
          = (alpha.take j).map (relink i x)
              ++ relink i x (alpha.getD j 0) :: alpha.drop (j + 1) := by
        rw [take_succ_getD alpha j hj, List.map_append, List.append_assoc]
        rfl
      rw [readAt_ok alpha j hj, hgoal]
      simp only [ok_bind]
      by_cases h1 : toSizeT (alpha.getD j 0) = i
      · have hr : relink i x (alpha.getD j 0) = toInt x := by
          unfold relink; rw [if_pos h1]
        rw [if_pos h1, hr, writeAt_ok _ _ _ hstlen, hset]
        exact ⟨_, rfl, rfl⟩
      · by_cases h2 : toSizeT (alpha.getD j 0) = x
        · have hr : relink i x (alpha.getD j 0) = toInt i := by
            unfold relink; rw [if_neg h1, if_pos h2]
          rw [if_neg h1, if_pos h2, hr, writeAt_ok _ _ _ hstlen, hset]
          exact ⟨_, rfl, rfl⟩
        · have hr : relink i x (alpha.getD j 0) = alpha.getD j 0 := by
            unfold relink; rw [if_neg h1, if_neg h2]
          rw [if_neg h1, if_neg h2, hr]
          refine ⟨_, rfl, ?_⟩
          rw [hinv, drop_eq_getD_cons alpha j hj])
  rw [hst, hinv]
  simp

theorem subSize_case (N i : Nat) (hN : (N : Int) ≤ INT_MAX) (hi : IsCase N i) :
    subSize i 1 = i - 1 := by
  apply subSize_one i hi.1
  have := hi.2
  unfold SIZE_MOD; unfold INT_MAX at hN; omega

/-- First forbidden swap: `i` is imported. -/
theorem swap_cases_imported (p : Param) (i : Nat) (hN : (p.alpha.length : Int) ≤ INT_MAX)
    (hi : IsCase p.alpha.length i) (h : caseValue p.alpha i = NA_INTEGER) :
    cpp_swap_cases p i = .ok p := by
  have h2 := hi.2
  have h1 := hi.1
  unfold cpp_swap_cases
  simp only []
  rw [subSize_case _ i hN hi, readAt_ok _ _ (by omega)]
  simp only [ok_bind]
  unfold caseValue at h
  rw [if_pos h]
  rfl

/-- Second forbidden swap: the ancestor of `i` is imported. -/
theorem swap_cases_ancestor_imported (p : Param) (i : Nat)
    (hN : (p.alpha.length : Int) ≤ INT_MAX) (hi : IsCase p.alpha.length i)
    (h : caseValue p.alpha i ≠ NA_INTEGER)
    (hx : IsCase p.alpha.length (toSizeT (caseValue p.alpha i)))
    (hax : caseValue p.alpha (toSizeT (caseValue p.alpha i)) = NA_INTEGER) :
    cpp_swap_cases p i = .ok p := by
  have h2 := hi.2
  have h1 := hi.1
  have hx1 := hx.1
  have hx2 := hx.2
  unfold cpp_swap_cases
  unfold caseValue at h hx hax hx1 hx2
  simp only []
  rw [subSize_case _ i hN hi, readAt_ok _ _ (by omega)]
  simp only [ok_bind]
  rw [if_neg h, subSize_case _ _ hN hx, readAt_ok _ _ (by omega)]
  simp only [ok_bind]
  rw [if_pos hax]
  rfl

/-- Closed form of a permitted swap. -/
theorem swap_permitted_closed_form (p : Param) (i : Nat)
    (hN : (p.alpha.length : Int) ≤ INT_MAX) (ht : p.t_inf.length = p.alpha.length)
    (hi : IsCase p.alpha.length i) (h : caseValue p.alpha i ≠ NA_INTEGER)
    (hx : IsCase p.alpha.length (toSizeT (caseValue p.alpha i)))
    (hax : caseValue p.alpha (toSizeT (caseValue p.alpha i)) ≠ NA_INTEGER) :
    cpp_swap_cases p i = .ok
      ⟨((p.alpha.map (relink i (toSizeT (caseValue p.alpha i)))).set (i - 1)
          (caseValue p.alpha (toSizeT (caseValue p.alpha i)))).set
            (toSizeT (caseValue p.alpha i) - 1) (toInt i),
        (p.t_inf.set (i - 1) (caseValue p.t_inf (toSizeT (caseValue p.alpha i)))).set
          (toSizeT (caseValue p.alpha i) - 1) (caseValue p.t_inf i)⟩ := by
  have h2 := hi.2
  have h1 := hi.1
  have hx1 := hx.1
  have hx2 := hx.2
  unfold cpp_swap_cases
  unfold caseValue at h hx hax hx1 hx2 ⊢
  simp only []
  rw [subSize_case _ i hN hi, readAt_ok _ _ (by omega)]
  simp only [ok_bind]
  rw [if_neg h, subSize_case _ _ hN hx, readAt_ok _ _ (by omega)]
  simp only [ok_bind]
  rw [if_neg hax, forLoop_relink]
  simp only [ok_bind]
  rw [writeAt_ok _ _ _ (by rw [List.length_map]; omega)]
  simp only [ok_bind]
  rw [writeAt_ok _ _ _ (by rw [List.length_set, List.length_map]; omega)]
  simp only [ok_bind]
  rw [readAt_ok _ _ (by omega), readAt_ok _ _ (by omega)]
  simp only [ok_bind]
  rw [writeAt_ok _ _ _ (by omega)]
  simp only [ok_bind]
  rw [writeAt_ok _ _ _ (by rw [List.length_set]; omega)]
  rfl

theorem getD_set (l : List Int) (a k : Nat) (v : Int) (ha : a < l.length) :
    (l.set a v).getD k 0 = if k = a then v else l.getD k 0 := by
  simp only [List.getD_eq_getElem?_getD, List.getElem?_set]
  by_cases h : a = k
  · subst h
    simp [ha]
  · rw [if_neg h, if_neg (fun h' => h h'.symm)]

theorem getD_map_lt (l : List Int) (f : Int → Int) (k : Nat) (hk : k < l.length) :
    (l.map f).getD k 0 = f (l.getD k 0) := by
  rw [List.getD_eq_getElem _ _ (by rw [List.length_map]; exact hk),
    List.getD_eq_getElem _ _ hk, List.getElem_map]

/-- On `int` entries and cases `i`, `x`, the relinking compares integers. -/
theorem relink_eq (i x : Nat) (a : Int) (ha1 : NA_INTEGER ≤ a) (ha2 : a ≤ INT_MAX)
    (hi : (i : Int) ≤ INT_MAX) (hx : (x : Int) ≤ INT_MAX) :
    relink i x a = if a = (i : Int) then (x : Int) else if a = (x : Int) then (i : Int) else a := by
  unfold relink
  rw [toInt_small i hi, toInt_small x hx]
  have h1 := toSizeT_eq_iff a i ha1 ha2 hi
  have h2 := toSizeT_eq_iff a x ha1 ha2 hx
  by_cases c1 : a = (i : Int)
  · rw [if_pos (h1.2 c1), if_pos c1]
  · rw [if_neg (fun h => c1 (h1.1 h)), if_neg c1]
    by_cases c2 : a = (x : Int)
    · rw [if_pos (h2.2 c2), if_pos c2]
    · rw [if_neg (fun h => c2 (h2.1 h)), if_neg c2]

/-- A permitted swap, entry by entry. -/
theorem swap_cases_pointwise (p : Param) (i x : Nat) (hW : WellFormed p)
    (hi : IsCase p.alpha.length i) (hxv : (x : Int) = caseValue p.alpha i)
    (hax : caseValue p.alpha x ≠ NA_INTEGER) :
    IsCase p.alpha.length x ∧
    ∃ out : Param, cpp_swap_cases p i = .ok out ∧
      out.alpha.length = p.alpha.length ∧ out.t_inf.length = p.alpha.length ∧
      (∀ k, IsCase p.alpha.length k →
        caseValue out.alpha k
          = if k = x then (i : Int) else if k = i then caseValue p.alpha x
            else if caseValue p.alpha k = (i : Int) then (x : Int)
            else if caseValue p.alpha k = (x : Int) then (i : Int)
            else caseValue p.alpha k) ∧
      (∀ k, IsCase p.alpha.length k →
        caseValue out.t_inf k
          = if k = x then caseValue p.t_inf i else if k = i then caseValue p.t_inf x
            else caseValue p.t_inf k) := by
  obtain ⟨hWa, ht⟩ := hW
  have hN := hWa.1
  have hV := wellFormedAlpha_isIntegerVector _ hWa
  have hi1 := hi.1
  have hi2 := hi.2
  have hxc : IsCase p.alpha.length x := by
    rcases wellFormed_caseValue _ hWa i hi with h | ⟨h1, h2⟩
    · rw [h] at hxv; unfold NA_INTEGER at hxv; omega
    · exact ⟨by omega, by omega⟩
  have hx1 := hxc.1
  have hx2 := hxc.2
  have hxs : toSizeT (caseValue p.alpha i) = x := by
    rw [← hxv]; apply toSizeT_nat; unfold SIZE_MOD; unfold INT_MAX at hN; omega
  have hna : caseValue p.alpha i ≠ NA_INTEGER := by
    rw [← hxv]; unfold NA_INTEGER; omega
  have hiN : (i : Int) ≤ INT_MAX := by omega
  have hxN : (x : Int) ≤ INT_MAX := by omega
  have heq := swap_permitted_closed_form p i hN ht hi hna (by rw [hxs]; exact hxc)
    (by rw [hxs]; exact hax)
  rw [hxs, toInt_small i hiN] at heq
  refine ⟨hxc, _, heq, by simp, by simp [ht], ?_, ?_⟩
  · intro k hk
    have hk1 := hk.1
    have hk2 := hk.2
    obtain ⟨r1, r2⟩ := hV.2 _ (getD_mem p.alpha (k - 1) (by omega))
    show caseValue (((p.alpha.map (relink i x)).set (i - 1) (caseValue p.alpha x)).set
      (x - 1) (i : Int)) k = _
    unfold caseValue
    rw [getD_set _ _ _ _ (by rw [List.length_set, List.length_map]; omega),
      getD_set _ _ _ _ (by rw [List.length_map]; omega),
      getD_map_lt _ _ _ (by omega), relink_eq i x _ r1 r2 hiN hxN]
    by_cases c1 : k = x
    · rw [if_pos c1, if_pos (by omega)]
    · rw [if_neg c1, if_neg (by omega)]
      by_cases c2 : k = i
      · rw [if_pos c2, if_pos (by omega)]
      · rw [if_neg c2, if_neg (by omega)]
  · intro k hk
    have hk1 := hk.1
    have hk2 := hk.2
    show caseValue ((p.t_inf.set (i - 1) (caseValue p.t_inf x)).set
      (x - 1) (caseValue p.t_inf i)) k = _
    unfold caseValue
    rw [getD_set _ _ _ _ (by rw [List.length_set]; omega),
      getD_set _ _ _ _ (by omega)]
    by_cases c1 : k = x
    · rw [if_pos c1, if_pos (by omega)]
    · rw [if_neg c1, if_neg (by omega)]
      by_cases c2 : k = i
      · rw [if_pos c2, if_pos (by omega)]
      · rw [if_neg c2, if_neg (by omega)]

/-- The ancestor of a case that is not imported is a case. -/
theorem wellFormed_ancestor_case (alpha : List Int) (hW : WellFormedAlpha alpha) (i x : Nat)
    (hi : IsCase alpha.length i) (hxv : (x : Int) = caseValue alpha i) :
    IsCase alpha.length x ∧ toSizeT (caseValue alpha i) = x ∧
      caseValue alpha i ≠ NA_INTEGER := by
  have hN := hW.1
  rcases wellFormed_caseValue _ hW i hi with h | ⟨h1, h2⟩
  · rw [h] at hxv; unfold NA_INTEGER at hxv; omega
  · refine ⟨⟨by omega, by omega⟩, ?_, by unfold NA_INTEGER; omega⟩
    rw [← hxv]
    apply toSizeT_nat
    unfold SIZE_MOD; unfold INT_MAX at hN; omega

/-- Second forbidden swap, the ancestor being named. -/
theorem swap_ancestor_imported_named (p : Param) (i x : Nat) (hW : WellFormed p)
    (hi : IsCase p.alpha.length i) (hxv : (x : Int) = caseValue p.alpha i)
    (hax : caseValue p.alpha x = NA_INTEGER) : cpp_swap_cases p i = .ok p := by
  obtain ⟨hxc, hxs, hna⟩ := wellFormed_ancestor_case p.alpha hW.1 i x hi hxv
  apply swap_cases_ancestor_imported p i hW.1.1 hi hna
  · rw [hxs]; exact hxc
  · rw [hxs]; exact hax

theorem swapIds_involutive (i x : Nat) (a : Int) : swapIds i x (swapIds i x a) = a := by
  unfold swapIds
  split_ifs <;> first | rfl | omega

theorem swapIds_case (N i x k : Nat) (hi : IsCase N i) (hx : IsCase N x) (hk : IsCase N k) :
    ∃ k0 : Nat, IsCase N k0 ∧ swapIds i x (k : Int) = (k0 : Int) := by
  unfold swapIds
  split_ifs
  · exact ⟨x, hx, rfl⟩
  · exact ⟨i, hi, rfl⟩
  · exact ⟨k, hk, rfl⟩

theorem ancestorOf_outside (alpha : List Int) (a : Int)
    (h : ¬ (1 ≤ a ∧ a ≤ (alpha.length : Int))) : ancestorOf alpha a = NA_INTEGER := by
  unfold ancestorOf
  rw [if_neg h]

/-- The facts a forest gives about a case `i`, its ancestor `x` and the
ancestor of `x`: no cycle of length one or two. -/
theorem noCycles_local (alpha : List Int) (hF : NoCycles alpha) (i x : Nat)
    (hi : IsCase alpha.length i) (hx : IsCase alpha.length x)
    (hxv : (x : Int) = caseValue alpha i) :
    x ≠ i ∧ caseValue alpha x ≠ (i : Int) ∧ caseValue alpha x ≠ (x : Int) := by
  have h1 := noCycles_iterate_ne alpha hF i hi 1 (by omega)
  rw [Function.iterate_one, ancestorOf_case alpha i hi, ← hxv] at h1
  have h2 := noCycles_iterate_ne alpha hF i hi 2 (by omega)
  rw [Function.iterate_succ_apply', Function.iterate_one, ancestorOf_case alpha i hi,
    ← hxv, ancestorOf_case alpha x hx] at h2
  have h3 := noCycles_iterate_ne alpha hF x hx 1 (by omega)
  rw [Function.iterate_one, ancestorOf_case alpha x hx] at h3
  exact ⟨fun h => h1 (by rw [h]), h2, h3⟩

/-- A permitted swap in a forest renames the tree by the transposition of `i`
and `x`. -/
theorem swap_ancestorOf (alpha alpha' : List Int) (i x : Nat)
    (hF : NoCycles alpha) (hi : IsCase alpha.length i) (hx : IsCase alpha.length x)
    (hxv : (x : Int) = caseValue alpha i) (hlen : alpha'.length = alpha.length)
    (ha : ∀ k, IsCase alpha.length k →
        caseValue alpha' k
          = if k = x then (i : Int) else if k = i then caseValue alpha x
            else if caseValue alpha k = (i : Int) then (x : Int)
            else if caseValue alpha k = (x : Int) then (i : Int)
            else caseValue alpha k) (a : Int) :
    ancestorOf alpha' (swapIds i x a) = swapIds i x (ancestorOf alpha a) := by
  obtain ⟨n1, n2, n3⟩ := noCycles_local alpha hF i x hi hx hxv
  have hi' : IsCase alpha'.length i := by rw [hlen]; exact hi
  have hx' : IsCase alpha'.length x := by rw [hlen]; exact hx
  by_cases c1 : a = (i : Int)
  · subst c1
    have hs : swapIds i x (i : Int) = (x : Int) := by unfold swapIds; rw [if_pos rfl]
    rw [hs, ancestorOf_case alpha' x hx', ancestorOf_case alpha i hi, ha x hx, if_pos rfl,
      ← hxv]
    unfold swapIds
    rw [if_neg (by omega), if_pos rfl]
  · by_cases c2 : a = (x : Int)
    · subst c2
      have hs : swapIds i x (x : Int) = (i : Int) := by
        unfold swapIds; rw [if_neg c1, if_pos rfl]
      rw [hs, ancestorOf_case alpha' i hi', ancestorOf_case alpha x hx, ha i hi,
        if_neg (fun h => n1 h.symm), if_pos rfl]
      unfold swapIds
      rw [if_neg n2, if_neg n3]
    · have hs : swapIds i x a = a := by
        unfold swapIds; rw [if_neg c1, if_neg c2]
      rw [hs]
      by_cases hr : 1 ≤ a ∧ a ≤ (alpha.length : Int)
      · obtain ⟨k, rfl⟩ : ∃ k : Nat, a = (k : Int) := ⟨a.toNat, by omega⟩
        have hk : IsCase alpha.length k := ⟨by omega, by omega⟩
        rw [ancestorOf_case alpha' k (by rw [hlen]; exact hk), ancestorOf_case alpha k hk,
          ha k hk, if_neg (by omega), if_neg (by omega)]
        rfl
      · rw [ancestorOf_outside alpha a hr, ancestorOf_outside alpha' a (by rw [hlen]; exact hr)]
        unfold swapIds
        have := hi.1
        have := hx.1
        rw [if_neg (by unfold NA_INTEGER; omega), if_neg (by unfold NA_INTEGER; omega)]

theorem mem_iff_caseValue (v : List Int) (a : Int) (h : a ∈ v) :
    ∃ k, IsCase v.length k ∧ caseValue v k = a := by
  obtain ⟨n, hn, rfl⟩ := List.mem_iff_getElem.1 h
  refine ⟨n + 1, ⟨by omega, by omega⟩, ?_⟩
  unfold caseValue
  rw [List.getD_eq_getElem _ _ (by omega)]
  rfl

/-- A permitted swap returns a well-formed ancestry vector. -/
theorem swap_wellFormedAlpha (alpha alpha' : List Int) (i x : Nat)
    (hW : WellFormedAlpha alpha) (hi : IsCase alpha.length i) (hx : IsCase alpha.length x)
    (hlen : alpha'.length = alpha.length)
    (ha : ∀ k, IsCase alpha.length k →
        caseValue alpha' k
          = if k = x then (i : Int) else if k = i then caseValue alpha x
            else if caseValue alpha k = (i : Int) then (x : Int)
            else if caseValue alpha k = (x : Int) then (i : Int)
            else caseValue alpha k) :
    WellFormedAlpha alpha' := by
  refine ⟨by rw [hlen]; exact hW.1, ?_⟩
  intro a hmem
  obtain ⟨k, hk, rfl⟩ := mem_iff_caseValue alpha' a hmem
  rw [hlen] at hk ⊢
  have hi1 := hi.1
  have hi2 := hi.2
  have hx1 := hx.1
  have hx2 := hx.2
  rw [ha k hk]
  split_ifs
  · right; omega
  · exact wellFormed_caseValue alpha hW x hx
  · right; omega
  · right; omega
  · exact wellFormed_caseValue alpha hW k hk

/-- A permitted swap in a forest returns a forest. -/
theorem swap_noCycles (alpha alpha' : List Int) (i x : Nat)
    (hF : NoCycles alpha) (hi : IsCase alpha.length i) (hx : IsCase alpha.length x)
    (hxv : (x : Int) = caseValue alpha i) (hax : caseValue alpha x ≠ NA_INTEGER)
    (hlen : alpha'.length = alpha.length)
    (ha : ∀ k, IsCase alpha.length k →
        caseValue alpha' k
          = if k = x then (i : Int) else if k = i then caseValue alpha x
            else if caseValue alpha k = (i : Int) then (x : Int)
            else if caseValue alpha k = (x : Int) then (i : Int)
            else caseValue alpha k) :
    NoCycles alpha' := by
  intro k hk
  rw [hlen] at hk
  obtain ⟨k0, hk0, hs⟩ := swapIds_case alpha.length i x k hi hx hk
  obtain ⟨n, c1, c2, c3⟩ := hF k0 hk0
  refine ⟨n, ?_⟩
  have hsemi : Function.Semiconj (swapIds i x) (ancestorOf alpha) (ancestorOf alpha') :=
    fun a => (swap_ancestorOf alpha alpha' i x hF hi hx hxv hlen ha a).symm
  have hit := (hsemi.iterate_right n) (k0 : Int)
  rw [← hs, swapIds_involutive] at hit
  rw [← hit, hs]
  generalize (ancestorOf alpha)^[n] (k0 : Int) = c at c1 c2 c3
  obtain ⟨m, rfl⟩ : ∃ m : Nat, c = (m : Int) := ⟨c.toNat, by omega⟩
  have hm : IsCase alpha.length m := ⟨by omega, by omega⟩
  have hmv : caseValue alpha m = NA_INTEGER := by
    unfold caseValue
    rw [← c3]
    congr 1
    omega
  have hmi : m ≠ i := by
    rintro rfl
    rw [← hxv] at hmv
    unfold NA_INTEGER at hmv
    omega
  have hmx : m ≠ x := by
    rintro rfl
    exact hax hmv
  have hsm : swapIds i x (m : Int) = (m : Int) := by
    unfold swapIds
    rw [if_neg (by omega), if_neg (by omega)]
  have hi1 := hi.1
  have hx1 := hx.1
  have hnew : caseValue alpha' m = NA_INTEGER := by
    rw [ha m hm, if_neg hmx, if_neg hmi, hmv, if_neg (by unfold NA_INTEGER; omega),
      if_neg (by unfold NA_INTEGER; omega)]
  rw [hsm]
  refine ⟨c1, by rw [hlen]; exact c2, ?_⟩
  unfold caseValue at hnew
  rw [← hnew]
  congr 1
  omega

/-- The chain `1 ← 2 ← 3`, `2 ← 4` with case 1 imported is a forest. -/
theorem noCycles_chain : NoCycles [NA_INTEGER, 1, 2, 2] := by
  intro k hk
  have h4 : k = 1 ∨ k = 2 ∨ k = 3 ∨ k = 4 := by
    have h1 := hk.1
    have h2 := hk.2
    simp at h2
    omega
  rcases h4 with rfl | rfl | rfl | rfl
  · exact ⟨0, by decide⟩
  · exact ⟨1, by decide⟩
  · exact ⟨2, by decide⟩
  · exact ⟨2, by decide⟩

/-- After a permitted swap in a forest, swapping the same case again does not
give the original state back. -/
theorem swap_twice_ne (p : Param) (i x : Nat) (hW : WellFormed p) (hF : NoCycles p.alpha)
    (hi : IsCase p.alpha.length i) (hxv : (x : Int) = caseValue p.alpha i)
    (hax : caseValue p.alpha x ≠ NA_INTEGER) :
    (cpp_swap_cases p i >>= fun s => cpp_swap_cases s i) ≠ .ok p := by
  obtain ⟨hxc, out, hout, hl1, hl2, ha, _⟩ := swap_cases_pointwise p i x hW hi hxv hax
  obtain ⟨n1, n2, n3⟩ := noCycles_local p.alpha hF i x hi hxc hxv
  have hWo : WellFormed out :=
    ⟨swap_wellFormedAlpha p.alpha out.alpha i x hW.1 hi hxc hl1 ha, by rw [hl1, hl2]⟩
  have hio : IsCase out.alpha.length i := by rw [hl1]; exact hi
  have hai : caseValue out.alpha i = caseValue p.alpha x := by
    rw [ha i hi, if_neg (fun h => n1 h.symm), if_pos rfl]
  rw [hout, ok_bind]
  rcases wellFormed_caseValue _ hW.1 x hxc with hna | ⟨h1, h2⟩
  · exact absurd hna hax
  · obtain ⟨y, hyv⟩ : ∃ y : Nat, (y : Int) = caseValue p.alpha x :=
      ⟨(caseValue p.alpha x).toNat, by omega⟩
    have hyc : IsCase p.alpha.length y := ⟨by omega, by omega⟩
    have hyo : (y : Int) = caseValue out.alpha i := by rw [hai]; exact hyv
    by_cases hay : caseValue out.alpha y = NA_INTEGER
    · rw [swap_ancestor_imported_named out i y hWo hio hyo hay]
      intro heq
      have heq : out = p := Except.ok.inj heq
      have hx := ha x hxc
      rw [if_pos rfl, heq] at hx
      exact n2 hx
    · obtain ⟨_, out2, hout2, _, _, ha2, _⟩ := swap_cases_pointwise out i y hWo hio hyo hay
      rw [hout2]
      intro heq
      have heq : out2 = p := Except.ok.inj heq
      have hy := ha2 y (by rw [hl1]; exact hyc)
      rw [if_pos rfl, heq] at hy
      have h3 := noCycles_iterate_ne p.alpha hF i hi 3 (by omega)
      apply h3
      rw [Function.iterate_succ_apply', Function.iterate_succ_apply', Function.iterate_one,
        ancestorOf_case p.alpha i hi, ← hxv, ancestorOf_case p.alpha x hxc, ← hyv,
        ancestorOf_case p.alpha y hyc, hy]

theorem roundHalfEven_le (r : ℚ) : (roundHalfEven r : ℚ) ≤ r + 1 / 2 := by
  have h1 : ((r.floor : Int) : ℚ) ≤ r := Int.floor_le r
  unfold roundHalfEven
  split_ifs with c1 c2 c3
  · linarith
  · push_cast; linarith
  · linarith
  · push_cast; linarith

theorem roundHalfEven_ge (r : ℚ) : r - 1 / 2 ≤ (roundHalfEven r : ℚ) := by
  have h1 : ((r.floor : Int) : ℚ) ≤ r := Int.floor_le r
  have h2 : r < ((r.floor : Int) : ℚ) + 1 := Int.lt_floor_add_one r
  unfold roundHalfEven
  split_ifs with c1 c2 c3
  · linarith
  · push_cast; linarith
  · linarith
  · push_cast; linarith

/-- Rounding does not pass an integer above. -/
theorem roundHalfEven_le_int (r : ℚ) (k : Int) (h : r ≤ (k : ℚ)) : roundHalfEven r ≤ k := by
  have h1 : ((r.floor : Int) : ℚ) ≤ r := Int.floor_le r
  have hf : r.floor ≤ k := by
    have : ((r.floor : Int) : ℚ) ≤ (k : ℚ) := le_trans h1 h
    exact_mod_cast this
  have hlt : r - (r.floor : ℚ) ≥ 1 / 2 → r.floor + 1 ≤ k := by
    intro hge
    have : ((r.floor : Int) : ℚ) < (k : ℚ) := by linarith
    have : r.floor < k := by exact_mod_cast this
    omega
  unfold roundHalfEven
  split_ifs with c1 c2 c3
  · exact hf
  · exact hlt (by linarith)
  · exact hf
  · exact hlt (by linarith)

/-- Rounding does not pass an integer below. -/
theorem roundHalfEven_ge_int (r : ℚ) (k : Int) (h : (k : ℚ) ≤ r) : k ≤ roundHalfEven r := by
  have hf : k ≤ r.floor := Int.le_floor.2 h
  unfold roundHalfEven
  split_ifs <;> omega

theorem two_zpow_pos (e : Int) : (0 : ℚ) < (2 : ℚ) ^ e := zpow_pos (by norm_num) e

theorem roundDouble_nonneg (q : ℚ) (hq : 0 ≤ q) : 0 ≤ roundDouble q := by
  unfold roundDouble
  have hs := two_zpow_pos (ulpExponent q)
  have hr : ((0 : Int) : ℚ) ≤ q / (2 : ℚ) ^ ulpExponent q := by
    simpa using div_nonneg hq hs.le
  have := roundHalfEven_ge_int _ 0 hr
  have h0 : (0 : ℚ) ≤ (roundHalfEven (q / (2 : ℚ) ^ ulpExponent q) : ℚ) := by exact_mod_cast this
  exact mul_nonneg h0 hs.le

/-- Rounding to a `double` does not pass a multiple of the spacing above. -/
theorem roundDouble_le_multiple (q : ℚ) (k : Int)
    (h : q ≤ (k : ℚ) * (2 : ℚ) ^ ulpExponent q) :
    roundDouble q ≤ (k : ℚ) * (2 : ℚ) ^ ulpExponent q := by
  unfold roundDouble
  have hs := two_zpow_pos (ulpExponent q)
  have hr : q / (2 : ℚ) ^ ulpExponent q ≤ (k : ℚ) := (div_le_iff₀ hs).2 h
  have := roundHalfEven_le_int _ k hr
  have hk : (roundHalfEven (q / (2 : ℚ) ^ ulpExponent q) : ℚ) ≤ (k : ℚ) := by exact_mod_cast this
  exact mul_le_mul_of_nonneg_right hk hs.le

/-- Rounding to a `double` does not pass a multiple of the spacing below. -/
theorem roundDouble_ge_multiple (q : ℚ) (k : Int)
    (h : (k : ℚ) * (2 : ℚ) ^ ulpExponent q ≤ q) :
    (k : ℚ) * (2 : ℚ) ^ ulpExponent q ≤ roundDouble q := by
  unfold roundDouble
  have hs := two_zpow_pos (ulpExponent q)
  have hr : (k : ℚ) ≤ q / (2 : ℚ) ^ ulpExponent q := (le_div_iff₀ hs).2 h
  have := roundHalfEven_ge_int _ k hr
  have hk : (k : ℚ) ≤ (roundHalfEven (q / (2 : ℚ) ^ ulpExponent q) : ℚ) := by exact_mod_cast this
  exact mul_le_mul_of_nonneg_right hk hs.le

/-- The error of rounding to a `double` is at most half the spacing. -/
theorem roundDouble_le_add (q : ℚ) :
    roundDouble q ≤ q + (2 : ℚ) ^ ulpExponent q / 2 := by
  unfold roundDouble
  have hs := two_zpow_pos (ulpExponent q)
  have h := roundHalfEven_le (q / (2 : ℚ) ^ ulpExponent q)
  have h2 := mul_le_mul_of_nonneg_right h hs.le
  have h3 : (q / (2 : ℚ) ^ ulpExponent q + 1 / 2) * (2 : ℚ) ^ ulpExponent q
      = q + (2 : ℚ) ^ ulpExponent q / 2 := by
    field_simp
    ring
  rw [h3] at h2
  exact h2

/-- Below `2 ^ 53` the spacing of the `double`s is at most one. -/
theorem ulpExponent_nonpos (q : ℚ) (hq : q < 2 ^ 53) : ulpExponent q ≤ 0 := by
  unfold ulpExponent
  have hlog : Int.log 2 q < 53 := by
    by_cases h0 : q ≤ 0
    · rw [Int.log_of_right_le_zero 2 h0]; omega
    · have hpos : 0 < q := lt_of_not_ge h0
      apply (Int.lt_zpow_iff_log_lt (by norm_num) hpos).1
      norm_num
      exact hq
  omega

/-- Every natural number is a multiple of a spacing that is at most one. -/
theorem nat_multiple (M : Nat) (e : Int) (he : e ≤ 0) :
    ∃ k : Int, (M : ℚ) = (k : ℚ) * (2 : ℚ) ^ e := by
  obtain ⟨n, rfl⟩ : ∃ n : Nat, e = -(n : Int) := ⟨(-e).toNat, by omega⟩
  refine ⟨(M : Int) * 2 ^ n, ?_⟩
  rw [zpow_neg, zpow_natCast]
  push_cast
  field_simp

theorem roundDouble_le_nat (q : ℚ) (M : Nat) (hq : q < 2 ^ 53) (h : q ≤ (M : ℚ)) :
    roundDouble q ≤ (M : ℚ) := by
  obtain ⟨k, hk⟩ := nat_multiple M (ulpExponent q) (ulpExponent_nonpos q hq)
  rw [hk] at h ⊢
  exact roundDouble_le_multiple q k h

theorem roundDouble_ge_nat (q : ℚ) (M : Nat) (hq : q < 2 ^ 53) (h : (M : ℚ) ≤ q) :
    (M : ℚ) ≤ roundDouble q := by
  obtain ⟨k, hk⟩ := nat_multiple M (ulpExponent q) (ulpExponent_nonpos q hq)
  rw [hk] at h ⊢
  exact roundDouble_ge_multiple q k h

/-- A size below `2 ^ 53` converts to `double` exactly. -/
theorem sizeToDouble_eq (n : Nat) (hn : (n : ℚ) < 2 ^ 53) : sizeToDouble n = (n : ℚ) :=
  le_antisymm (roundDouble_le_nat _ n hn le_rfl) (roundDouble_ge_nat _ n hn le_rfl)

/-- Relative form of the rounding error: at most `2 ^ (-53)` of the value, or
at most `2 ^ (-1075)` for a value below `2 ^ (-1022)`. -/
theorem roundDouble_le_rel (q : ℚ) (hq : 0 < q) :
    roundDouble q ≤ q * (1 + 1 / 2 ^ 53) ∨
      (q < (2 : ℚ) ^ (-1022 : Int) ∧ roundDouble q ≤ q + (2 : ℚ) ^ (-1075 : Int)) := by
  have hadd := roundDouble_le_add q
  by_cases hlog : -1022 ≤ Int.log 2 q
  · left
    have hue : ulpExponent q = Int.log 2 q - 52 := by
      unfold ulpExponent; omega
    have hle : ((2 : ℕ) : ℚ) ^ Int.log 2 q ≤ q := Int.zpow_log_le_self (by norm_num) hq
    rw [hue, zpow_sub₀ (by norm_num : (2 : ℚ) ≠ 0)] at hadd
    have h2 : (2 : ℚ) ^ Int.log 2 q ≤ q := by simpa using hle
    have h52 : (2 : ℚ) ^ (52 : Int) = 2 ^ 52 := by norm_cast
    rw [h52] at hadd
    have : (2 : ℚ) ^ Int.log 2 q / 2 ^ 52 / 2 ≤ q / 2 ^ 53 := by
      rw [div_div]
      have : (2 : ℚ) ^ 52 * 2 = 2 ^ 53 := by norm_num
      rw [this]
      exact div_le_div_of_nonneg_right h2 (by positivity)
    linarith
  · right
    have hue : ulpExponent q = -1074 := by
      unfold ulpExponent; omega
    have hlt : q < ((2 : ℕ) : ℚ) ^ (Int.log 2 q + 1) := Int.lt_zpow_succ_log_self (by norm_num) q
    have hmono : ((2 : ℕ) : ℚ) ^ (Int.log 2 q + 1) ≤ ((2 : ℕ) : ℚ) ^ (-1022 : Int) :=
      zpow_le_zpow_right₀ (by norm_num) (by omega)
    have hcast : ((2 : ℕ) : ℚ) = (2 : ℚ) := by norm_num
    rw [hcast] at hlt hmono
    have h1074 : (2 : ℚ) ^ (-1074 : Int) / 2 = (2 : ℚ) ^ (-1075 : Int) := by
      have : (-1075 : Int) = -1074 - 1 := by norm_num
      rw [this, zpow_sub_one₀ (by norm_num : (2 : ℚ) ≠ 0)]
      rfl
    rw [hue, h1074] at hadd
    exact ⟨lt_of_lt_of_le hlt hmono, hadd⟩

/-- A `double` below one is at most `1 - 2 ^ (-53)`. -/
theorem double_lt_one (u : ℚ) (hd : IsDouble u) (hu : u < 1) : u ≤ 1 - 1 / 2 ^ 53 := by
  obtain ⟨m, e, hm, _, _, rfl⟩ := hd
  have hm' : (m : ℚ) ≤ 2 ^ 53 - 1 := by
    have : m ≤ 2 ^ 53 - 1 := by omega
    have h := (Nat.cast_le (α := ℚ)).2 this
    rw [Nat.cast_sub (by norm_num)] at h
    simpa using h
  by_cases he : e ≤ -53
  · have h2 : (2 : ℚ) ^ e ≤ (2 : ℚ) ^ (-53 : Int) := zpow_le_zpow_right₀ (by norm_num) he
    have h53 : (2 : ℚ) ^ (-53 : Int) = 1 / 2 ^ 53 := by
      rw [zpow_neg]; norm_cast; simp
    rw [h53] at h2
    have hpos := two_zpow_pos e
    calc (m : ℚ) * (2 : ℚ) ^ e ≤ (2 ^ 53 - 1) * (2 : ℚ) ^ e :=
          mul_le_mul_of_nonneg_right hm' hpos.le
      _ ≤ (2 ^ 53 - 1) * (1 / 2 ^ 53) := mul_le_mul_of_nonneg_left h2 (by norm_num)
      _ = 1 - 1 / 2 ^ 53 := by norm_num
  · obtain ⟨n, hn⟩ : ∃ n : Nat, e + 53 = (n : Int) := ⟨(e + 53).toNat, by omega⟩
    have he' : e = (n : Int) - 53 := by omega
    have hpow : (2 : ℚ) ^ e = (2 : ℚ) ^ n / 2 ^ 53 := by
      rw [he', zpow_sub₀ (by norm_num : (2 : ℚ) ≠ 0), zpow_natCast]
      norm_cast
    rw [hpow] at hu ⊢
    have hu' : (m : ℚ) * 2 ^ n < 2 ^ 53 := by
      have h := hu
      rw [← mul_div_assoc, div_lt_one (by positivity)] at h
      exact h
    have hlt : ((m * 2 ^ n : Nat) : ℚ) < ((2 ^ 53 : Nat) : ℚ) := by
      push_cast
      exact hu'
    have hnat : m * 2 ^ n < 2 ^ 53 := by exact_mod_cast hlt
    have hle : m * 2 ^ n ≤ 2 ^ 53 - 1 := by omega
    have hq : ((m * 2 ^ n : Nat) : ℚ) ≤ 2 ^ 53 - 1 := by
      have h := (Nat.cast_le (α := ℚ)).2 hle
      rw [Nat.cast_sub (by norm_num)] at h
      simpa using h
    push_cast at hq
    rw [← mul_div_assoc, div_le_iff₀ (by positivity)]
    calc (m : ℚ) * 2 ^ n ≤ 2 ^ 53 - 1 := hq
      _ = (1 - 1 / 2 ^ 53) * 2 ^ 53 := by norm_num

theorem doubleToSize_lt (p : ℚ) (n : Nat) (h0 : 0 ≤ p) (h : p < (n : ℚ)) :
    doubleToSize p < n := by
  unfold doubleToSize
  have h1 : (0 : Int) ≤ p.floor := by
    change 0 ≤ ⌊p⌋
    exact Int.floor_nonneg.2 h0
  have h2 : p.floor < (n : Int) := by
    change ⌊p⌋ < (n : Int)
    rw [Int.floor_lt]
    exact_mod_cast h
  omega

theorem doubleToSize_eq_iff (p : ℚ) (m : Nat) (h0 : 0 ≤ p) :
    doubleToSize p = m ↔ (m : ℚ) ≤ p ∧ p < (m : ℚ) + 1 := by
  unfold doubleToSize
  have h1 : (0 : Int) ≤ p.floor := by
    change 0 ≤ ⌊p⌋
    exact Int.floor_nonneg.2 h0
  have key : p.floor = (m : Int) ↔ (m : ℚ) ≤ p ∧ p < (m : ℚ) + 1 := by
    change ⌊p⌋ = (m : Int) ↔ _
    rw [Int.floor_eq_iff]
    simp
  rw [← key]
  omega

/-- A value below `2 ^ (-1022)` is rounded to a `double` below one. -/
theorem tiny_lt_one (q r : ℚ) (hq : q < (2 : ℚ) ^ (-1022 : Int))
    (hr : r ≤ q + (2 : ℚ) ^ (-1075 : Int)) : r < 1 := by
  have ha : (2 : ℚ) ^ (-1022 : Int) ≤ (2 : ℚ) ^ (-1 : Int) :=
    zpow_le_zpow_right₀ (by norm_num) (by norm_num)
  have hb : (2 : ℚ) ^ (-1075 : Int) ≤ (2 : ℚ) ^ (-2 : Int) :=
    zpow_le_zpow_right₀ (by norm_num) (by norm_num)
  have hc : (2 : ℚ) ^ (-1 : Int) = 1 / 2 := by norm_num
  have hd : (2 : ℚ) ^ (-2 : Int) = 1 / 4 := by norm_num
  rw [hc] at ha
  rw [hd] at hb
  generalize (2 : ℚ) ^ (-1022 : Int) = A at hq ha
  generalize (2 : ℚ) ^ (-1075 : Int) = B at hr hb
  linarith

/-- For a `double` draw in `[0, 1)` the subscript of `cpp_sample1` is inside the
vector. -/
theorem sampleSlot_lt (u : ℚ) (n : Nat) (hd : IsDouble u) (hu0 : 0 ≤ u) (hu1 : u < 1)
    (hn : 0 < n) (hn53 : (n : ℚ) < 2 ^ 53) : sampleSlot u n < n := by
  have hle := double_lt_one u hd hu1
  have hnq : (0 : ℚ) < (n : ℚ) := by exact_mod_cast hn
  have hn1 : (1 : ℚ) ≤ (n : ℚ) := by exact_mod_cast hn
  unfold sampleSlot mulDouble
  rw [sizeToDouble_eq n hn53]
  have hq0 : 0 ≤ u * n := mul_nonneg hu0 hnq.le
  have hqn : u * n ≤ (1 - 1 / 2 ^ 53) * n := mul_le_mul_of_nonneg_right hle hnq.le
  apply doubleToSize_lt _ _ (roundDouble_nonneg _ hq0)
  rcases eq_or_lt_of_le hq0 with h0 | hpos
  · rw [← h0]
    have := roundDouble_le_nat 0 0 (by norm_num) (by simp)
    simp only [Nat.cast_zero] at this
    linarith
  · rcases roundDouble_le_rel (u * n) hpos with h | ⟨hsmall, h⟩
    · have h3 : u * n * (1 + 1 / 2 ^ 53) ≤ (1 - 1 / 2 ^ 53) * n * (1 + 1 / 2 ^ 53) :=
        mul_le_mul_of_nonneg_right hqn (by norm_num)
      have h4 : (1 - 1 / 2 ^ 53) * (n : ℚ) * (1 + 1 / 2 ^ 53) < n := by
        have : (1 - 1 / 2 ^ 53) * (n : ℚ) * (1 + 1 / 2 ^ 53)
            = n - n * (1 / 2 ^ 53 * (1 / 2 ^ 53)) := by ring
        rw [this]
        have : (0 : ℚ) < n * (1 / 2 ^ 53 * (1 / 2 ^ 53)) := by positivity
        linarith
      linarith
    · exact lt_of_lt_of_le (tiny_lt_one _ _ hsmall h) hn1

/-- The subscript of `cpp_sample1` is `m` exactly when the exact product lies in
`[m, m + 1)` and is not rounded up to `m + 1`, or lies below `m` and is rounded
up to `m`. -/
theorem sampleSlot_eq_iff (u : ℚ) (n m : Nat) (hu0 : 0 ≤ u)
    (hn53 : (n : ℚ) < 2 ^ 53) (hq : u * n < 2 ^ 53) :
    sampleSlot u n = m ↔
      (((m : ℚ) ≤ u * n ∧ u * n < (m : ℚ) + 1 ∧ mulDouble u n ≠ (m : ℚ) + 1) ∨
        (u * n < (m : ℚ) ∧ mulDouble u n = (m : ℚ))) := by
  have hq0 : 0 ≤ u * n := mul_nonneg hu0 (by positivity)
  unfold sampleSlot
  rw [sizeToDouble_eq n hn53]
  unfold mulDouble
  rw [doubleToSize_eq_iff _ _ (roundDouble_nonneg _ hq0)]
  constructor
  · rintro ⟨h1, h2⟩
    have hlt : u * n < (m : ℚ) + 1 := by
      by_contra hge
      have := roundDouble_ge_nat (u * n) (m + 1) hq (by push_cast; linarith)
      push_cast at this
      linarith
    by_cases hm : (m : ℚ) ≤ u * n
    · exact Or.inl ⟨hm, hlt, ne_of_lt h2⟩
    · right
      have hm' : u * n < (m : ℚ) := lt_of_not_ge hm
      exact ⟨hm', le_antisymm (roundDouble_le_nat (u * n) m hq hm'.le) h1⟩
  · rintro (⟨h1, h2, h3⟩ | ⟨h1, h2⟩)
    · refine ⟨roundDouble_ge_nat (u * n) m hq h1, ?_⟩
      have := roundDouble_le_nat (u * n) (m + 1) hq (by push_cast; linarith)
      push_cast at this
      exact lt_of_le_of_ne this h3
    · rw [h2]
      exact ⟨le_rfl, by linarith⟩

/-- A product that is rounded up to a positive integer is within `2 ^ (-53)` of it. -/
theorem roundDouble_up_close (q : ℚ) (M : Nat) (hq : 0 < q) (hM : 0 < M)
    (h : roundDouble q = (M : ℚ)) : (M : ℚ) ≤ q * (1 + 1 / 2 ^ 53) := by
  have hM1 : (1 : ℚ) ≤ (M : ℚ) := by exact_mod_cast hM
  rcases roundDouble_le_rel q hq with hrel | ⟨hsmall, hrel⟩
  · rw [h] at hrel; exact hrel
  · exfalso
    have := tiny_lt_one _ _ hsmall hrel
    rw [h] at this
    linarith

theorem isDouble_half : IsDouble (1 / 2) :=
  ⟨1, -1, by norm_num, by norm_num, by norm_num, by norm_num⟩

/-- The `double` nearest to one third, `0x1.5555555555555p-2`. -/
theorem isDouble_third : IsDouble (6004799503160661 / 2 ^ 54) :=
  ⟨6004799503160661, -54, by norm_num, by norm_num, by norm_num, by
    rw [zpow_neg]
    norm_num⟩

/-- Three times the `double` nearest to one third is `1 - 2 ^ (-54)`, half way
between two `double`s, and is rounded to one. -/
theorem mulDouble_third_three : mulDouble (6004799503160661 / 2 ^ 54) 3 = 1 := by
  have hq : (6004799503160661 / 2 ^ 54 : ℚ) * 3 = 18014398509481983 / 2 ^ 54 := by norm_num
  have hpos : (0 : ℚ) < 18014398509481983 / 2 ^ 54 := by norm_num
  have h1 : -1 ≤ Int.log 2 (18014398509481983 / 2 ^ 54 : ℚ) := by
    apply (Int.zpow_le_iff_le_log (by norm_num) hpos).1
    norm_num
  have h2 : Int.log 2 (18014398509481983 / 2 ^ 54 : ℚ) < 0 := by
    apply (Int.lt_zpow_iff_log_lt (by norm_num) hpos).1
    norm_num
  have hue : ulpExponent (18014398509481983 / 2 ^ 54 : ℚ) = -53 := by
    unfold ulpExponent; omega
  have hdiv : (18014398509481983 / 2 ^ 54 : ℚ) / (2 : ℚ) ^ (-53 : Int)
      = 18014398509481983 / 2 := by
    rw [zpow_neg]
    norm_num
  have hfloor : (18014398509481983 / 2 : ℚ).floor = 9007199254740991 := by
    change ⌊(18014398509481983 / 2 : ℚ)⌋ = 9007199254740991
    rw [Int.floor_eq_iff]
    norm_num
  have hround : roundHalfEven (18014398509481983 / 2) = 9007199254740992 := by
    unfold roundHalfEven
    rw [hfloor]
    norm_num
  unfold mulDouble roundDouble
  rw [hq, hue, hdiv, hround, zpow_neg]
  norm_num

theorem sampleSlot_third_three : sampleSlot (6004799503160661 / 2 ^ 54) 3 = 1 := by
  unfold sampleSlot
  rw [sizeToDouble_eq 3 (by norm_num)]
  have h := mulDouble_third_three
  simp only [Nat.cast_ofNat] at h ⊢
  rw [h]
  unfold doubleToSize
  change ⌊(1 : ℚ)⌋.toNat = 1
  simp

/-- Closed form of `cpp_sample1` when the subscript is inside the vector. -/
theorem sample1_eq (u : ℚ) (x : List Int) (h : sampleSlot u x.length < x.length) :
    cpp_sample1 u x = .ok (toSizeT (x.getD (sampleSlot u x.length) 0)) := by
  unfold cpp_sample1
  rw [if_neg (by omega), readAt_ok _ _ h]
  rfl

/-- The subscript of `cpp_sample1` is the floor of the exact product, or one
more when the product is rounded up to the next integer. -/
theorem sampleSlot_floor (u : ℚ) (n : Nat) (hu0 : 0 ≤ u)
    (hn53 : (n : ℚ) < 2 ^ 53) (hq : u * n < 2 ^ 53) :
    sampleSlot u n = (u * n).floor.toNat ∨
      (sampleSlot u n = (u * n).floor.toNat + 1 ∧
        mulDouble u n = (((u * n).floor.toNat + 1 : Nat) : ℚ)) := by
  have hq0 : 0 ≤ u * n := mul_nonneg hu0 (by positivity)
  have hf0 : (0 : Int) ≤ (u * n).floor := by
    change 0 ≤ ⌊u * (n : ℚ)⌋
    exact Int.floor_nonneg.2 hq0
  obtain ⟨k, hk⟩ := Int.eq_ofNat_of_zero_le hf0
  have hkn : (u * n).floor.toNat = k := by
    rw [hk]; exact Int.toNat_ofNat k
  rw [hkn]
  have hfl : (k : ℚ) ≤ u * n := by
    have h1 : (((u * n).floor : Int) : ℚ) ≤ u * n := Int.floor_le _
    rw [hk] at h1
    exact_mod_cast h1
  have hfu : u * n < (k : ℚ) + 1 := by
    have h1 : u * n < (((u * n).floor : Int) : ℚ) + 1 := Int.lt_floor_add_one _
    rw [hk] at h1
    exact_mod_cast h1
  by_cases hup : mulDouble u n = ((k + 1 : Nat) : ℚ)
  · right
    refine ⟨?_, hup⟩
    apply (sampleSlot_eq_iff u n _ hu0 hn53 hq).2
    right
    push_cast at hup ⊢
    exact ⟨hfu, hup⟩
  · left
    apply (sampleSlot_eq_iff u n _ hu0 hn53 hq).2
    left
    push_cast at hup
    exact ⟨hfl, hfu, hup⟩

theorem readAt_outside (v : List Int) (k : Nat) (h : v.length ≤ k) :
    readAt v k = .error .outOfRange := by
  unfold readAt
  rw [dif_neg (by omega)]

theorem error_bind {α β : Type} (e : Failure) (f : α → Result β) :
    ((Except.error e : Result α) >>= f) = .error e := rfl

/-- For an identifier that is not a case, the slot `i - 1` lies outside the vector. -/
theorem subSize_outside (N i : Nat) (hN : (N : Int) ≤ INT_MAX) (hsz : i < SIZE_MOD)
    (hout : ¬ IsCase N i) : N ≤ subSize i 1 := by
  unfold IsCase at hout
  unfold subSize
  unfold SIZE_MOD at *
  unfold INT_MAX at hN
  omega

/-- A loop whose first iteration fails, fails. -/
theorem forLoop_first_fails {σ : Type} (n : Nat) (body : Nat → σ → Result σ) (init : σ)
    (e : Failure) (hn : 0 < n) (h : body 0 init = .error e) :
    forLoop n body init = .error e := by
  obtain ⟨m, rfl⟩ : ∃ m, n = m + 1 := ⟨n - 1, by omega⟩
  unfold forLoop
  rw [List.range_succ_eq_map, List.foldlM_cons, h]
  rfl

/-- `cpp_find_descendents` finds nothing for an identifier that is not a case. -/
theorem descCases_outside (alpha : List Int) (i : Nat) (hW : WellFormedAlpha alpha)
    (hout : ¬ IsCase alpha.length i) (hi : (i : Int) ≤ INT_MAX) :
    descCases alpha i = [] := by
  unfold descCases
  rw [descSlots_eq alpha i (wellFormedAlpha_isIntegerVector alpha hW) hi]
  rw [List.map_eq_nil_iff, List.filter_eq_nil_iff]
  intro j hj
  have hj := List.mem_range.1 hj
  unfold IsCase at hout
  rcases hW.2 _ (getD_mem alpha j hj) with h | ⟨h1, h2⟩
  · rw [h]
    unfold NA_INTEGER
    simp only [decide_eq_true_eq]
    omega
  · simp only [decide_eq_true_eq]
    omega

theorem possible_ancestors_outside (t_inf : List Int) (i : Nat)
    (hN : (t_inf.length : Int) ≤ INT_MAX) (hsz : i < SIZE_MOD)
    (hout : ¬ IsCase t_inf.length i) (hne : t_inf ≠ []) :
    cpp_are_possible_ancestors t_inf i = .error .outOfRange := by
  have hlen : 0 < t_inf.length := List.length_pos.2 hne
  unfold cpp_are_possible_ancestors
  apply forLoop_first_fails _ _ _ _ hlen
  beta_reduce
  rw [readAt_ok _ _ hlen, readAt_outside _ _ (subSize_outside _ i hN hsz hout)]
  rfl

theorem find_local_cases_outside (alpha : List Int) (i : Nat)
    (hN : (alpha.length : Int) ≤ INT_MAX) (hsz : i < SIZE_MOD)
    (hout : ¬ IsCase alpha.length i) :
    cpp_find_local_cases alpha i = .error .outOfRange := by
  unfold cpp_find_local_cases
  rw [find_descendents_ok alpha i hN, readAt_outside _ _ (subSize_outside _ i hN hsz hout)]
  rfl

theorem swap_cases_outside (p : Param) (i : Nat)
    (hN : (p.alpha.length : Int) ≤ INT_MAX) (hsz : i < SIZE_MOD)
    (hout : ¬ IsCase p.alpha.length i) :
    cpp_swap_cases p i = .error .outOfRange := by
  unfold cpp_swap_cases
  simp only []
  rw [readAt_outside _ _ (subSize_outside _ i hN hsz hout)]
  rfl

theorem get_n_mutations_outside (data : Data) (i j : Nat)
    (hN : (data.has_dna.length : Int) ≤ INT_MAX) (hsz : i < SIZE_MOD)
    (hout : ¬ IsCase data.has_dna.length i) :
    cpp_get_n_mutations data i j = .error .outOfRange := by
  unfold cpp_get_n_mutations
  rw [readAt_outside _ _ (subSize_outside _ i hN hsz hout)]
  rfl

/-- Two vectors of the same length with the same value for every case are equal. -/
theorem list_eq_of_caseValue (v w : List Int) (hlen : v.length = w.length)
    (h : ∀ k, IsCase w.length k → caseValue v k = caseValue w k) : v = w := by
  apply List.ext_getElem hlen
  intro n h1 h2
  have := h (n + 1) ⟨by omega, by omega⟩
  unfold caseValue at this
  simp only [Nat.add_sub_cancel] at this
  rw [List.getD_eq_getElem _ _ h1, List.getD_eq_getElem _ _ h2] at this
  exact this

theorem swapCase_involutive (i x k : Nat) : swapCase i x (swapCase i x k) = k := by
  unfold swapCase
  split_ifs <;> omega

theorem swapCase_isCase (N i x k : Nat) (hi : IsCase N i) (hx : IsCase N x)
    (hk : IsCase N k) : IsCase N (swapCase i x k) := by
  unfold swapCase
  split_ifs
  · exact hx
  · exact hi
  · exact hk

theorem swapIds_cast (i x k : Nat) : swapIds i x (k : Int) = (swapCase i x k : Int) := by
  unfold swapIds swapCase
  split_ifs <;> first | rfl | omega

theorem swapIds_NA (i x : Nat) : swapIds i x NA_INTEGER = NA_INTEGER := by
  unfold swapIds NA_INTEGER
  rw [if_neg (by omega), if_neg (by omega)]

/-- When `i`, its ancestor `x` and the ancestor of `x` are three different
values, the ancestry after a permitted swap is the old one renamed by the
transposition of `i` and `x`. -/
theorem swap_relabel_alpha (alpha alpha' : List Int) (i x : Nat)
    (hxv : (x : Int) = caseValue alpha i)
    (n1 : x ≠ i) (n2 : caseValue alpha x ≠ (i : Int)) (n3 : caseValue alpha x ≠ (x : Int))
    (ha : ∀ k, IsCase alpha.length k →
        caseValue alpha' k
          = if k = x then (i : Int) else if k = i then caseValue alpha x
            else if caseValue alpha k = (i : Int) then (x : Int)
            else if caseValue alpha k = (x : Int) then (i : Int)
            else caseValue alpha k)
    (k : Nat) (hk : IsCase alpha.length k) :
    caseValue alpha' k = swapIds i x (caseValue alpha (swapCase i x k)) := by
  rw [ha k hk]
  unfold swapCase
  by_cases c1 : k = x
  · subst c1
    rw [if_pos rfl, if_neg n1, if_pos rfl, ← hxv]
    unfold swapIds
    rw [if_neg (by omega), if_pos rfl]
  · rw [if_neg c1]
    by_cases c2 : k = i
    · subst c2
      rw [if_pos rfl, if_pos rfl]
      unfold swapIds
      rw [if_neg n2, if_neg n3]
    · rw [if_neg c2, if_neg c2, if_neg c1]
      rfl

/-- The infection times after a permitted swap are the old ones renamed by the
transposition of `i` and `x`. -/
theorem swap_relabel_t_inf (t t' : List Int) (N i x : Nat)
    (ht : ∀ k, IsCase N k →
        caseValue t' k
          = if k = x then caseValue t i else if k = i then caseValue t x
            else caseValue t k)
    (k : Nat) (hk : IsCase N k) :
    caseValue t' k = caseValue t (swapCase i x k) := by
  rw [ht k hk]
  unfold swapCase
  by_cases c1 : k = x
  · subst c1
    rw [if_pos rfl]
    by_cases c2 : k = i
    · subst c2
      rw [if_pos rfl]
    · rw [if_neg c2, if_pos rfl]
  · rw [if_neg c1]
    by_cases c2 : k = i
    · subst c2
      rw [if_pos rfl, if_pos rfl]
    · rw [if_neg c2, if_neg c2, if_neg c1]

/-- Exchanging two entries of a vector permutes it. -/
theorem set_set_perm (l : List Int) (a b : Nat) (ha : a < l.length) (hb : b < l.length) :
    ((l.set a (l.getD b 0)).set b (l.getD a 0)).Perm l := by
  rw [List.perm_iff_count]
  intro c
  rw [List.getD_eq_getElem _ _ ha, List.getD_eq_getElem _ _ hb]
  have hb' : b < (l.set a l[b]).length := by rw [List.length_set]; exact hb
  rw [List.count_set _ _ _ _ hb', List.count_set _ _ _ _ ha, List.getElem_set]
  have hle : (if l[a] == c then 1 else 0) ≤ l.count c := by
    have := List.boole_getElem_le_countP (fun y => y == c) l a ha
    simpa [List.count_eq_countP] using this
  by_cases hab : a = b
  · subst hab
    rw [if_pos rfl]
    omega
  · rw [if_neg hab]
    omega

/-- Two vectors report the same descendents for `a` and `b` when their entries
equal `a`, respectively `b`, at the same cases. -/
theorem descCases_congr (v w : List Int) (a b : Nat) (hv : IsIntegerVector v)
    (hw : IsIntegerVector w) (ha : (a : Int) ≤ INT_MAX) (hb : (b : Int) ≤ INT_MAX)
    (hlen : v.length = w.length)
    (h : ∀ k, IsCase w.length k → (caseValue v k = (a : Int) ↔ caseValue w k = (b : Int))) :
    descCases v a = descCases w b := by
  unfold descCases
  rw [descSlots_eq v a hv ha, descSlots_eq w b hw hb, hlen]
  congr 1
  apply List.filter_congr
  intro j hj
  have hj := List.mem_range.1 hj
  have := h (j + 1) ⟨by omega, by omega⟩
  unfold caseValue at this
  simp only [Nat.add_sub_cancel] at this
  exact decide_eq_decide.2 this

/-- In a time-ordered tree a case, its ancestor and the ancestor of that
ancestor are three different values. -/
theorem timeOrdered_local (p : Param) (hT : TimeOrdered p) (i x : Nat)
    (hi : IsCase p.alpha.length i) (hx : IsCase p.alpha.length x)
    (hxv : (x : Int) = caseValue p.alpha i) (hax : caseValue p.alpha x ≠ NA_INTEGER) :
    x ≠ i ∧ caseValue p.alpha x ≠ (i : Int) ∧ caseValue p.alpha x ≠ (x : Int) := by
  have h1 := hT i hi (by rw [← hxv]; unfold NA_INTEGER; omega)
  rw [← hxv, Int.toNat_ofNat] at h1
  have h2 := hT x hx hax
  refine ⟨?_, ?_, ?_⟩
  · rintro rfl
    exact lt_irrefl _ h1
  · intro h
    rw [h, Int.toNat_ofNat] at h2
    exact lt_irrefl _ (lt_trans h1 h2)
  · intro h
    rw [h, Int.toNat_ofNat] at h2
    exact lt_irrefl _ h2

/-- The infection times after a permitted swap are a permutation of the old ones. -/
theorem swap_t_inf_perm (p out : Param) (i x : Nat) (hW : WellFormed p)
    (hi : IsCase p.alpha.length i) (hxv : (x : Int) = caseValue p.alpha i)
    (hax : caseValue p.alpha x ≠ NA_INTEGER) (hout : cpp_swap_cases p i = .ok out) :
    out.t_inf.Perm p.t_inf := by
  obtain ⟨hxc, hxs, hna⟩ := wellFormed_ancestor_case p.alpha hW.1 i x hi hxv
  have hcf := swap_permitted_closed_form p i hW.1.1 hW.2 hi hna (by rw [hxs]; exact hxc)
    (by rw [hxs]; exact hax)
  rw [hout, hxs] at hcf
  have heq := Except.ok.inj hcf
  rw [heq]
  have h1 := hi.1
  have h2 := hi.2
  have h3 := hxc.1
  have h4 := hxc.2
  have ht := hW.2
  exact set_set_perm p.t_inf (i - 1) (x - 1) (by omega) (by omega)

/-- The chain `1 ← 2 ← 3`, `2 ← 4` with times `5, 8, 11, 9` is time ordered. -/
theorem timeOrdered_chain : TimeOrdered ⟨[NA_INTEGER, 1, 2, 2], [5, 8, 11, 9]⟩ := by
  intro k hk hne
  have h4 : k = 1 ∨ k = 2 ∨ k = 3 ∨ k = 4 := by
    have h1 := hk.1
    have h2 := hk.2
    simp at h2
    omega
  rcases h4 with rfl | rfl | rfl | rfl
  · exact absurd (by decide) hne
  · decide
  · decide
  · decide

/-! ## Claims -/

/-- C1: on a well-formed tree state and a case `i` whose ancestor `x = alpha[i]`
is a case that is not imported, `cpp_swap_cases` returns a state of the same
length with `alpha'[i] = alpha[x]`, `alpha'[x] = i`, every other case relinked
from `i` to `x` and from `x` to `i`, the infection times of `i` and `x`
exchanged, and all other infection times unchanged. -/
theorem swap_cases_permitted (p : Param) (i x : Nat) (hW : WellFormed p)
    (hi : IsCase p.alpha.length i) (hxv : (x : Int) = caseValue p.alpha i)
    (hax : caseValue p.alpha x ≠ NA_INTEGER) :
    ∃ out : Param, cpp_swap_cases p i = .ok out ∧
      out.alpha.length = p.alpha.length ∧ out.t_inf.length = p.t_inf.length ∧
      caseValue out.alpha i = caseValue p.alpha x ∧
      caseValue out.alpha x = (i : Int) ∧
      (∀ k, IsCase p.alpha.length k → k ≠ i → k ≠ x →
        caseValue out.alpha k
          = if caseValue p.alpha k = (i : Int) then (x : Int)
            else if caseValue p.alpha k = (x : Int) then (i : Int)
            else caseValue p.alpha k) ∧
      caseValue out.t_inf i = caseValue p.t_inf x ∧
      caseValue out.t_inf x = caseValue p.t_inf i ∧
      (∀ k, IsCase p.alpha.length k → k ≠ i → k ≠ x →
        caseValue out.t_inf k = caseValue p.t_inf k) := by
  obtain ⟨hxc, out, hout, hl1, hl2, ha, ht⟩ := swap_cases_pointwise p i x hW hi hxv hax
  refine ⟨out, hout, hl1, by rw [hl2, hW.2], ?_, ?_, ?_, ?_, ?_, ?_⟩
  · rw [ha i hi]
    by_cases c : i = x
    · rw [if_pos c]
      subst c
      exact hxv
    · rw [if_neg c, if_pos rfl]
  · rw [ha x hxc, if_pos rfl]
  · intro k hk h1 h2
    rw [ha k hk, if_neg h2, if_neg h1]
  · rw [ht i hi]
    by_cases c : i = x
    · rw [if_pos c]
      subst c
      rfl
    · rw [if_neg c, if_pos rfl]
  · rw [ht x hxc, if_pos rfl]
  · intro k hk h1 h2
    rw [ht k hk, if_neg h2, if_neg h1]

/-- C1 at `alpha = [NA, 1, 2, 2]`, `t_inf = [5, 8, 11, 9]`, `i = 3`, `x = 2`: the
result is `alpha = [NA, 3, 1, 3]`, `t_inf = [5, 11, 8, 9]`. -/
theorem swap_cases_permitted_witness :
    WellFormed ⟨[NA_INTEGER, 1, 2, 2], [5, 8, 11, 9]⟩ ∧
    IsCase ([NA_INTEGER, 1, 2, 2] : List Int).length 3 ∧
    ((2 : Nat) : Int) = caseValue [NA_INTEGER, 1, 2, 2] 3 ∧
    caseValue [NA_INTEGER, 1, 2, 2] 2 ≠ NA_INTEGER ∧
    cpp_swap_cases ⟨[NA_INTEGER, 1, 2, 2], [5, 8, 11, 9]⟩ 3
      = .ok ⟨[NA_INTEGER, 3, 1, 3], [5, 11, 8, 9]⟩ ∧
    ∃ out : Param, cpp_swap_cases ⟨[NA_INTEGER, 1, 2, 2], [5, 8, 11, 9]⟩ 3 = .ok out ∧
      out.alpha.length = 4 ∧ out.t_inf.length = 4 ∧
      caseValue out.alpha 3 = caseValue [NA_INTEGER, 1, 2, 2] 2 ∧
      caseValue out.alpha 2 = ((3 : Nat) : Int) ∧
      (∀ k, IsCase 4 k → k ≠ 3 → k ≠ 2 →
        caseValue out.alpha k
          = if caseValue [NA_INTEGER, 1, 2, 2] k = ((3 : Nat) : Int) then ((2 : Nat) : Int)
            else if caseValue [NA_INTEGER, 1, 2, 2] k = ((2 : Nat) : Int) then ((3 : Nat) : Int)
            else caseValue [NA_INTEGER, 1, 2, 2] k) ∧
      caseValue out.t_inf 3 = caseValue [5, 8, 11, 9] 2 ∧
      caseValue out.t_inf 2 = caseValue [5, 8, 11, 9] 3 ∧
      (∀ k, IsCase 4 k → k ≠ 3 → k ≠ 2 →
        caseValue out.t_inf k = caseValue [5, 8, 11, 9] k) :=
  ⟨by decide, by decide, by decide, by decide, by decide,
    swap_cases_permitted ⟨[NA_INTEGER, 1, 2, 2], [5, 8, 11, 9]⟩ 3 2
      (by decide) (by decide) (by decide) (by decide)⟩

/-- C2: on a well-formed tree state and a case `i`, when `i` is imported or its
ancestor `x = alpha[i]` is an imported case, `cpp_swap_cases` does not fail and
returns the input state, ancestry and infection times alike. -/
theorem swap_cases_forbidden (p : Param) (i : Nat) (hW : WellFormed p)
    (hi : IsCase p.alpha.length i)
    (h : caseValue p.alpha i = NA_INTEGER ∨
      ∃ x : Nat, (x : Int) = caseValue p.alpha i ∧ caseValue p.alpha x = NA_INTEGER) :
    cpp_swap_cases p i = .ok p := by
  have hN := hW.1.1
  rcases h with h | ⟨x, hxv, hax⟩
  · exact swap_cases_imported p i hN hi h
  · exact swap_ancestor_imported_named p i x hW hi hxv hax

/-- C2 at `alpha = [NA, 1, 1, 3]`, `t_inf = [10, 15, 12, 20]`, `i = 3`, whose
ancestor 1 is imported. -/
theorem swap_cases_forbidden_witness :
    WellFormed ⟨[NA_INTEGER, 1, 1, 3], [10, 15, 12, 20]⟩ ∧
    IsCase ([NA_INTEGER, 1, 1, 3] : List Int).length 3 ∧
    (((1 : Nat) : Int) = caseValue [NA_INTEGER, 1, 1, 3] 3 ∧
      caseValue [NA_INTEGER, 1, 1, 3] 1 = NA_INTEGER) ∧
    cpp_swap_cases ⟨[NA_INTEGER, 1, 1, 3], [10, 15, 12, 20]⟩ 3
      = .ok ⟨[NA_INTEGER, 1, 1, 3], [10, 15, 12, 20]⟩ :=
  ⟨by decide, by decide, by decide,
    swap_cases_forbidden ⟨[NA_INTEGER, 1, 1, 3], [10, 15, 12, 20]⟩ 3 (by decide) (by decide)
      (Or.inr ⟨1, by decide, by decide⟩)⟩

/-- C3: on a well-formed tree state whose ancestry has no cycles and a case `i`,
`cpp_swap_cases` returns an ancestry vector of the same length that has no
cycles either, and whose every entry is the imported marker or a case. -/
theorem swap_cases_preserves_forest (p : Param) (i : Nat) (hW : WellFormed p)
    (hF : NoCycles p.alpha) (hi : IsCase p.alpha.length i) :
    ∃ out : Param, cpp_swap_cases p i = .ok out ∧
      out.alpha.length = p.alpha.length ∧ WellFormedAlpha out.alpha ∧
      NoCycles out.alpha := by
  rcases wellFormed_caseValue _ hW.1 i hi with hna | ⟨h1, h2⟩
  · exact ⟨p, swap_cases_imported p i hW.1.1 hi hna, rfl, hW.1, hF⟩
  · obtain ⟨x, hxv⟩ : ∃ x : Nat, (x : Int) = caseValue p.alpha i :=
      ⟨(caseValue p.alpha i).toNat, by omega⟩
    by_cases hax : caseValue p.alpha x = NA_INTEGER
    · exact ⟨p, swap_ancestor_imported_named p i x hW hi hxv hax, rfl, hW.1, hF⟩
    · obtain ⟨hxc, out, hout, hl1, _, ha, _⟩ := swap_cases_pointwise p i x hW hi hxv hax
      exact ⟨out, hout, hl1, swap_wellFormedAlpha p.alpha out.alpha i x hW.1 hi hxc hl1 ha,
        swap_noCycles p.alpha out.alpha i x hF hi hxc hxv hax hl1 ha⟩

/-- C3 at `alpha = [NA, 1, 2, 2]`, `t_inf = [5, 8, 11, 9]`, `i = 3`. -/
theorem swap_cases_preserves_forest_witness :
    WellFormed ⟨[NA_INTEGER, 1, 2, 2], [5, 8, 11, 9]⟩ ∧
    NoCycles [NA_INTEGER, 1, 2, 2] ∧
    IsCase ([NA_INTEGER, 1, 2, 2] : List Int).length 3 ∧
    ∃ out : Param, cpp_swap_cases ⟨[NA_INTEGER, 1, 2, 2], [5, 8, 11, 9]⟩ 3 = .ok out ∧
      out.alpha.length = 4 ∧ WellFormedAlpha out.alpha ∧ NoCycles out.alpha :=
  ⟨by decide, noCycles_chain, by decide,
    swap_cases_preserves_forest ⟨[NA_INTEGER, 1, 2, 2], [5, 8, 11, 9]⟩ 3
      (by decide) noCycles_chain (by decide)⟩

/-- C4, as stated, fails: in the forest `alpha = [NA, 1, 2, 2]` with
`t_inf = [5, 8, 11, 9]`, swapping case 3 twice gives `alpha = [NA, 3, 1, 3]`,
`t_inf = [5, 11, 8, 9]`, not the original state. -/
theorem swap_twice_same_case_counterexample :
    ¬ (∀ (p : Param) (i : Nat), WellFormed p → NoCycles p.alpha → IsCase p.alpha.length i →
        (cpp_swap_cases p i >>= fun s => cpp_swap_cases s i) = .ok p) := by
  intro h
  have h3 := h ⟨[NA_INTEGER, 1, 2, 2], [5, 8, 11, 9]⟩ 3 (by decide) noCycles_chain (by decide)
  have hval : (cpp_swap_cases ⟨[NA_INTEGER, 1, 2, 2], [5, 8, 11, 9]⟩ 3
      >>= fun s => cpp_swap_cases s 3) = .ok ⟨[NA_INTEGER, 3, 1, 3], [5, 11, 8, 9]⟩ := by
    decide
  rw [hval] at h3
  exact absurd h3 (by decide)

/-- C4, amended: on a well-formed tree state without cycles and a case `i`,
swapping `i` twice returns the original state exactly when the swap of `i` is
forbidden, that is when `i` or its ancestor is imported. -/
theorem swap_twice_same_case_iff (p : Param) (i : Nat) (hW : WellFormed p)
    (hF : NoCycles p.alpha) (hi : IsCase p.alpha.length i) :
    (cpp_swap_cases p i >>= fun s => cpp_swap_cases s i) = .ok p
      ↔ (caseValue p.alpha i = NA_INTEGER ∨
          ∃ x : Nat, (x : Int) = caseValue p.alpha i ∧ caseValue p.alpha x = NA_INTEGER) := by
  constructor
  · intro h
    by_contra hne
    push_neg at hne
    obtain ⟨hna, hall⟩ := hne
    rcases wellFormed_caseValue _ hW.1 i hi with hna' | ⟨h1, h2⟩
    · exact hna hna'
    · obtain ⟨x, hxv⟩ : ∃ x : Nat, (x : Int) = caseValue p.alpha i :=
        ⟨(caseValue p.alpha i).toNat, by omega⟩
      exact swap_twice_ne p i x hW hF hi hxv (hall x hxv) h
  · intro h
    have h1 : cpp_swap_cases p i = .ok p := by
      rcases h with h | ⟨x, hxv, hax⟩
      · exact swap_cases_imported p i hW.1.1 hi h
      · exact swap_ancestor_imported_named p i x hW hi hxv hax
    rw [h1, ok_bind, h1]

/-- C4 amended, at `alpha = [NA, 1, 2, 2]`, `t_inf = [5, 8, 11, 9]`, `i = 2`,
whose ancestor 1 is imported. -/
theorem swap_twice_same_case_iff_witness :
    WellFormed ⟨[NA_INTEGER, 1, 2, 2], [5, 8, 11, 9]⟩ ∧
    NoCycles [NA_INTEGER, 1, 2, 2] ∧
    IsCase ([NA_INTEGER, 1, 2, 2] : List Int).length 2 ∧
    ((cpp_swap_cases ⟨[NA_INTEGER, 1, 2, 2], [5, 8, 11, 9]⟩ 2
        >>= fun s => cpp_swap_cases s 2) = .ok ⟨[NA_INTEGER, 1, 2, 2], [5, 8, 11, 9]⟩
      ↔ (caseValue [NA_INTEGER, 1, 2, 2] 2 = NA_INTEGER ∨
          ∃ x : Nat, (x : Int) = caseValue [NA_INTEGER, 1, 2, 2] 2 ∧
            caseValue [NA_INTEGER, 1, 2, 2] x = NA_INTEGER)) :=
  ⟨by decide, noCycles_chain, by decide,
    swap_twice_same_case_iff ⟨[NA_INTEGER, 1, 2, 2], [5, 8, 11, 9]⟩ 2
      (by decide) noCycles_chain (by decide)⟩

/-- C5: on a case `i` of the tree, `cpp_are_possible_ancestors` returns exactly
the cases whose infection time is strictly below that of `i`, in strictly
ascending order and each once; the result does not contain `i`, contains no
case tied with `i`, and is empty when the time of `i` is the minimum. -/
theorem find_possible_ancestors_exact (t_inf : List Int) (i : Nat)
    (hN : (t_inf.length : Int) ≤ INT_MAX) (hi : IsCase t_inf.length i) :
    ∃ ks : List Nat,
      cpp_are_possible_ancestors t_inf i = .ok (ks.map (fun (k : Nat) => (k : Int))) ∧
      ks.Pairwise (fun a b => a < b) ∧ ks.Nodup ∧
      (∀ k, k ∈ ks ↔ IsCase t_inf.length k ∧ caseValue t_inf k < caseValue t_inf i) ∧
      i ∉ ks ∧
      (∀ k, IsCase t_inf.length k → caseValue t_inf k = caseValue t_inf i → k ∉ ks) ∧
      ((∀ k, IsCase t_inf.length k → caseValue t_inf i ≤ caseValue t_inf k) → ks = []) := by
  have hmem : ∀ k, k ∈ ((List.range t_inf.length).filter
        (fun j => decide (t_inf.getD j 0 < t_inf.getD (i - 1) 0))).map (fun j => j + 1)
      ↔ IsCase t_inf.length k ∧ caseValue t_inf k < caseValue t_inf i := by
    intro k
    rw [mem_filter_range_succ]
    simp [caseValue]
  have hpw := pairwise_lt_filter_range_succ
    (fun j => decide (t_inf.getD j 0 < t_inf.getD (i - 1) 0)) t_inf.length
  refine ⟨((List.range t_inf.length).filter
        (fun j => decide (t_inf.getD j 0 < t_inf.getD (i - 1) 0))).map (fun j => j + 1),
      ?_, hpw, ?_, hmem, ?_, ?_, ?_⟩
  · rw [possible_ancestors_eq t_inf i hN hi, List.map_map]
    rfl
  · exact hpw.imp (fun h => Nat.ne_of_lt h)
  · intro h
    exact lt_irrefl _ ((hmem i).1 h).2
  · intro k _ heq h
    have := ((hmem k).1 h).2
    omega
  · intro hmin
    apply List.eq_nil_iff_forall_not_mem.2
    intro k h
    obtain ⟨hk, hlt⟩ := (hmem k).1 h
    have := hmin k hk
    omega

/-- C5 at `t_inf = [5, 8, 11, 9]`, `i = 4`. -/
theorem find_possible_ancestors_exact_witness :
    (([5, 8, 11, 9] : List Int).length : Int) ≤ INT_MAX ∧
    IsCase ([5, 8, 11, 9] : List Int).length 4 ∧
    ∃ ks : List Nat,
      cpp_are_possible_ancestors [5, 8, 11, 9] 4 = .ok (ks.map (fun (k : Nat) => (k : Int))) ∧
      ks.Pairwise (fun a b => a < b) ∧ ks.Nodup ∧
      (∀ k, k ∈ ks ↔ IsCase ([5, 8, 11, 9] : List Int).length k ∧
        caseValue [5, 8, 11, 9] k < caseValue [5, 8, 11, 9] 4) ∧
      4 ∉ ks ∧
      (∀ k, IsCase ([5, 8, 11, 9] : List Int).length k →
        caseValue [5, 8, 11, 9] k = caseValue [5, 8, 11, 9] 4 → k ∉ ks) ∧
      ((∀ k, IsCase ([5, 8, 11, 9] : List Int).length k →
        caseValue [5, 8, 11, 9] 4 ≤ caseValue [5, 8, 11, 9] k) → ks = []) :=
  ⟨by decide, by decide, find_possible_ancestors_exact [5, 8, 11, 9] 4 (by decide) (by decide)⟩

/-- C6: on a vector of `int`s and a case `i`, `cpp_find_descendents` returns
exactly the cases `k` with `alpha[k] = i`, in strictly ascending order and each
once; the length of the result is the number of entries of `alpha` equal to
`i`, the result is empty when there is none, and no reported case is imported. -/
theorem find_descendents_exact (alpha : List Int) (i : Nat)
    (hV : IsIntegerVector alpha) (hi : IsCase alpha.length i) :
    ∃ ks : List Nat,
      cpp_find_descendents alpha i = .ok (ks.map (fun (k : Nat) => (k : Int))) ∧
      ks.Pairwise (fun a b => a < b) ∧ ks.Nodup ∧
      (∀ k, k ∈ ks ↔ IsCase alpha.length k ∧ caseValue alpha k = (i : Int)) ∧
      ks.length = alpha.count (i : Int) ∧
      ((∀ k, IsCase alpha.length k → caseValue alpha k ≠ (i : Int)) → ks = []) ∧
      (∀ k ∈ ks, caseValue alpha k ≠ NA_INTEGER) := by
  have hiN : (i : Int) ≤ INT_MAX := by
    have := hV.1; have := hi.2; omega
  have hmem : ∀ k, k ∈ (descSlots alpha i).map (fun j => j + 1)
      ↔ IsCase alpha.length k ∧ caseValue alpha k = (i : Int) := by
    intro k
    rw [descSlots_eq alpha i hV hiN, mem_filter_range_succ]
    simp [caseValue]
  have hpw : ((descSlots alpha i).map (fun j => j + 1)).Pairwise (fun a b => a < b) :=
    pairwise_lt_filter_range_succ _ alpha.length
  refine ⟨(descSlots alpha i).map (fun j => j + 1), ?_, hpw, ?_, hmem, ?_, ?_, ?_⟩
  · rw [find_descendents_eq alpha i hV.1, List.map_map]
    rfl
  · exact hpw.imp (fun h => Nat.ne_of_lt h)
  · rw [List.length_map, descSlots_eq alpha i hV hiN]
    exact length_filter_range_eq_countP alpha (fun a => decide (a = (i : Int)))
  · intro hnone
    apply List.eq_nil_iff_forall_not_mem.2
    intro k h
    obtain ⟨hk, heq⟩ := (hmem k).1 h
    exact hnone k hk heq
  · intro k h
    obtain ⟨_, heq⟩ := (hmem k).1 h
    rw [heq]
    have := hi.1
    unfold NA_INTEGER
    omega

/-- C6 at `alpha = [NA, 1, 2, 2]`, `i = 2`. -/
theorem find_descendents_exact_witness :
    IsIntegerVector [NA_INTEGER, 1, 2, 2] ∧
    IsCase ([NA_INTEGER, 1, 2, 2] : List Int).length 2 ∧
    ∃ ks : List Nat,
      cpp_find_descendents [NA_INTEGER, 1, 2, 2] 2
        = .ok (ks.map (fun (k : Nat) => (k : Int))) ∧
      ks.Pairwise (fun a b => a < b) ∧ ks.Nodup ∧
      (∀ k, k ∈ ks ↔ IsCase ([NA_INTEGER, 1, 2, 2] : List Int).length k ∧
        caseValue [NA_INTEGER, 1, 2, 2] k = ((2 : Nat) : Int)) ∧
      ks.length = ([NA_INTEGER, 1, 2, 2] : List Int).count ((2 : Nat) : Int) ∧
      ((∀ k, IsCase ([NA_INTEGER, 1, 2, 2] : List Int).length k →
        caseValue [NA_INTEGER, 1, 2, 2] k ≠ ((2 : Nat) : Int)) → ks = []) ∧
      (∀ k ∈ ks, caseValue [NA_INTEGER, 1, 2, 2] k ≠ NA_INTEGER) :=
  ⟨by decide, by decide,
    find_descendents_exact [NA_INTEGER, 1, 2, 2] 2 (by decide) (by decide)⟩

/-- C7: on a well-formed ancestry vector and a case `i`, `cpp_find_local_cases`
returns `[i] ++ descendents of i` when `i` is imported, and
`[i] ++ descendents of i ++ [x] ++ (descendents of x without i)` with
`x = alpha[i]` when `i` is not imported, the descendents being those that
`cpp_find_descendents` returns. -/
theorem find_local_cases_sequence (alpha : List Int) (i : Nat)
    (hW : WellFormedAlpha alpha) (hi : IsCase alpha.length i) :
    ∃ desc_i : List Int,
      cpp_find_descendents alpha i = .ok desc_i ∧
      (caseValue alpha i = NA_INTEGER →
        cpp_find_local_cases alpha i = .ok ([(i : Int)] ++ desc_i)) ∧
      (caseValue alpha i ≠ NA_INTEGER →
        ∃ (x : Nat) (desc_x : List Int),
          IsCase alpha.length x ∧ (x : Int) = caseValue alpha i ∧
          cpp_find_descendents alpha x = .ok desc_x ∧
          cpp_find_local_cases alpha i
            = .ok ([(i : Int)] ++ desc_i ++ [(x : Int)]
                ++ desc_x.filter (fun d => decide (d ≠ (i : Int))))) := by
  have hN := hW.1
  refine ⟨descCases alpha i, find_descendents_ok alpha i hN, ?_, ?_⟩
  · intro hna
    rw [find_local_cases_eq alpha i hN hi]
    unfold caseValue at hna
    rw [if_neg (by simpa using hna)]
  · intro hna
    rcases wellFormed_caseValue alpha hW i hi with h | ⟨h1, h2⟩
    · exact absurd h hna
    · have hx : ((toSizeT (caseValue alpha i) : Nat) : Int) = caseValue alpha i := by
        unfold toSizeT SIZE_MOD; unfold INT_MAX at hN; omega
      refine ⟨toSizeT (caseValue alpha i), descCases alpha (toSizeT (caseValue alpha i)),
        ⟨by omega, by omega⟩, hx, find_descendents_ok alpha _ hN, ?_⟩
      rw [find_local_cases_eq alpha i hN hi, hx, ← descCases_filter_int alpha _ i hN]
      unfold caseValue at hna ⊢
      rw [if_pos hna]

/-- C7 at `alpha = [NA, 1, 2, 2]`, `i = 3`. -/
theorem find_local_cases_sequence_witness :
    WellFormedAlpha [NA_INTEGER, 1, 2, 2] ∧
    IsCase ([NA_INTEGER, 1, 2, 2] : List Int).length 3 ∧
    ∃ desc_i : List Int,
      cpp_find_descendents [NA_INTEGER, 1, 2, 2] 3 = .ok desc_i ∧
      (caseValue [NA_INTEGER, 1, 2, 2] 3 = NA_INTEGER →
        cpp_find_local_cases [NA_INTEGER, 1, 2, 2] 3 = .ok ([((3 : Nat) : Int)] ++ desc_i)) ∧
      (caseValue [NA_INTEGER, 1, 2, 2] 3 ≠ NA_INTEGER →
        ∃ (x : Nat) (desc_x : List Int),
          IsCase ([NA_INTEGER, 1, 2, 2] : List Int).length x ∧
          (x : Int) = caseValue [NA_INTEGER, 1, 2, 2] 3 ∧
          cpp_find_descendents [NA_INTEGER, 1, 2, 2] x = .ok desc_x ∧
          cpp_find_local_cases [NA_INTEGER, 1, 2, 2] 3
            = .ok ([((3 : Nat) : Int)] ++ desc_i ++ [(x : Int)]
                ++ desc_x.filter (fun d => decide (d ≠ ((3 : Nat) : Int))))) :=
  ⟨by decide, by decide,
    find_local_cases_sequence [NA_INTEGER, 1, 2, 2] 3 (by decide) (by decide)⟩

/-- C8: on a well-formed ancestry vector without cycles and a case `i`, the
result of `cpp_find_local_cases` contains `i` and contains no element twice. -/
theorem find_local_cases_nodup (alpha : List Int) (i : Nat)
    (hW : WellFormedAlpha alpha) (hF : NoCycles alpha) (hi : IsCase alpha.length i) :
    ∃ out : List Int,
      cpp_find_local_cases alpha i = .ok out ∧ (i : Int) ∈ out ∧ out.Nodup := by
  have hN := hW.1
  have hV := wellFormedAlpha_isIntegerVector alpha hW
  have hiN : (i : Int) ≤ INT_MAX := by
    have := hi.2; omega
  have hstep1 := noCycles_iterate_ne alpha hF i hi 1 (by omega)
  rw [Function.iterate_one, ancestorOf_case alpha i hi] at hstep1
  have hiD : (i : Int) ∉ descCases alpha i := by
    intro h
    obtain ⟨k, _, hk, hv⟩ := (mem_descCases alpha i hV hiN _).1 h
    have hk : i = k := by exact_mod_cast hk
    subst hk
    exact hstep1 hv
  rw [find_local_cases_eq alpha i hN hi]
  refine ⟨_, rfl, ?_, ?_⟩
  · split <;> simp
  · rcases wellFormed_caseValue alpha hW i hi with hna | ⟨h1, h2⟩
    · unfold caseValue at hna
      rw [if_neg (by simpa using hna)]
      exact nodup_two _ _ (descCases_nodup alpha i) hiD
    · have hna : caseValue alpha i ≠ NA_INTEGER := by
        unfold NA_INTEGER; omega
      have hx : ((toSizeT (caseValue alpha i) : Nat) : Int) = caseValue alpha i := by
        unfold toSizeT SIZE_MOD; unfold INT_MAX at hN; omega
      have hxc : IsCase alpha.length (toSizeT (caseValue alpha i)) := ⟨by omega, by omega⟩
      have hxN : ((toSizeT (caseValue alpha i) : Nat) : Int) ≤ INT_MAX := by omega
      have hstep2 := noCycles_iterate_ne alpha hF i hi 2 (by omega)
      rw [Function.iterate_succ_apply', Function.iterate_one, ancestorOf_case alpha i hi,
        ← hx, ancestorOf_case alpha _ hxc] at hstep2
      have hstepx := noCycles_iterate_ne alpha hF _ hxc 1 (by omega)
      rw [Function.iterate_one, ancestorOf_case alpha _ hxc] at hstepx
      unfold caseValue at hna
      rw [if_pos hna]
      rw [descCases_filter_int alpha _ i hN]
      change ([(i : Int)] ++ descCases alpha i ++ [caseValue alpha i] ++
        (descCases alpha (toSizeT (caseValue alpha i))).filter
          (fun d => decide (d ≠ (i : Int)))).Nodup
      apply nodup_four
      · exact descCases_nodup alpha i
      · exact (descCases_nodup alpha _).filter _
      · exact hiD
      · exact fun h => hstep1 h.symm
      · intro h
        have := (List.mem_filter.1 h).2
        simp at this
      · intro h
        obtain ⟨k, hk, hkx, hv⟩ := (mem_descCases alpha i hV hiN _).1 h
        rw [← hx] at hkx
        have hkx : toSizeT (caseValue alpha i) = k := by exact_mod_cast hkx
        rw [← hkx] at hv
        exact hstep2 hv
      · intro h
        obtain ⟨k, hk, hkx, hv⟩ := (mem_descCases alpha _ hV hxN _).1 (List.mem_filter.1 h).1
        rw [← hx] at hkx
        have hkx : toSizeT (caseValue alpha i) = k := by exact_mod_cast hkx
        rw [← hkx] at hv
        exact hstepx hv
      · intro d hd h
        obtain ⟨k, hk, rfl, hv⟩ := (mem_descCases alpha i hV hiN _).1 hd
        obtain ⟨k', hk', hkk, hv'⟩ := (mem_descCases alpha _ hV hxN _).1 (List.mem_filter.1 h).1
        have hkk : k = k' := by exact_mod_cast hkk
        subst hkk
        rw [hv, hx] at hv'
        exact hstep1 hv'.symm

/-- C8 at `alpha = [NA, 1, 2, 2]`, `i = 3`. -/
theorem find_local_cases_nodup_witness :
    WellFormedAlpha [NA_INTEGER, 1, 2, 2] ∧ NoCycles [NA_INTEGER, 1, 2, 2] ∧
    IsCase ([NA_INTEGER, 1, 2, 2] : List Int).length 3 ∧
    ∃ out : List Int,
      cpp_find_local_cases [NA_INTEGER, 1, 2, 2] 3 = .ok out ∧
        ((3 : Nat) : Int) ∈ out ∧ out.Nodup :=
  ⟨by decide, noCycles_chain, by decide,
    find_local_cases_nodup [NA_INTEGER, 1, 2, 2] 3 (by decide) noCycles_chain (by decide)⟩

/-- C9: on a well-formed dataset and cases `i`, `j`, `cpp_get_n_mutations`
fails if and only if the presence flag of `i` or of `j` is false; it then
stops with the missing-sequences error and returns no number; when both flags
are set it returns the matrix entry at the sequence indices of `i` and `j`. -/
theorem get_n_mutations_spec (data : Data) (i j : Nat) (hW : WellFormedData data)
    (hi : IsCase data.has_dna.length i) (hj : IsCase data.has_dna.length j) :
    ((∃ e, cpp_get_n_mutations data i j = .error e)
      ↔ (caseValue data.has_dna i = 0 ∨ caseValue data.has_dna j = 0)) ∧
    ((caseValue data.has_dna i = 0 ∨ caseValue data.has_dna j = 0) →
      cpp_get_n_mutations data i j = .error (.stop .missingSequences) ∧
        ∀ n : Nat, cpp_get_n_mutations data i j ≠ .ok n) ∧
    (caseValue data.has_dna i ≠ 0 → caseValue data.has_dna j ≠ 0 →
      ∃ n : Nat, cpp_get_n_mutations data i j = .ok n ∧
        (n : Int) = matrixValue data.D (caseValue data.id_in_dna i).toNat
          (caseValue data.id_in_dna j).toNat) := by
  have heq := get_n_mutations_eq data i j hW hi hj
  have hfail : (caseValue data.has_dna i = 0 ∨ caseValue data.has_dna j = 0) →
      cpp_get_n_mutations data i j = .error (.stop .missingSequences) := by
    intro h
    rw [heq, if_neg]
    rintro ⟨h1, h2⟩
    rcases h with h | h
    · exact h1 h
    · exact h2 h
  have hok : caseValue data.has_dna i ≠ 0 → caseValue data.has_dna j ≠ 0 →
      cpp_get_n_mutations data i j
        = .ok (toSizeT (matrixValue data.D (caseValue data.id_in_dna i).toNat
            (caseValue data.id_in_dna j).toNat)) := by
    intro h1 h2
    rw [heq, if_pos ⟨h1, h2⟩]
  refine ⟨⟨?_, fun h => ⟨_, hfail h⟩⟩, ?_, ?_⟩
  · rintro ⟨e, he⟩
    by_contra hne
    push_neg at hne
    rw [hok hne.1 hne.2] at he
    cases he
  · intro h
    refine ⟨hfail h, ?_⟩
    intro n hn
    rw [hfail h] at hn
    cases hn
  · intro h1 h2
    refine ⟨_, hok h1 h2, ?_⟩
    obtain ⟨r1, r2⟩ := matrixValue_range data hW (caseValue data.id_in_dna i).toNat
      (caseValue data.id_in_dna j).toNat
    unfold toSizeT SIZE_MOD
    unfold INT_MAX at r2
    omega

/-- C9 at a dataset of three cases, the second without sequence, with `i = 1`, `j = 3`. -/
theorem get_n_mutations_spec_witness :
    WellFormedData ⟨[1, 0, 1], [1, NA_INTEGER, 2], ⟨2, 2, [0, 3, 3, 0]⟩⟩ ∧
    IsCase ([1, 0, 1] : List Int).length 1 ∧ IsCase ([1, 0, 1] : List Int).length 3 ∧
    cpp_get_n_mutations ⟨[1, 0, 1], [1, NA_INTEGER, 2], ⟨2, 2, [0, 3, 3, 0]⟩⟩ 1 3 = .ok 3 ∧
    ((∃ e, cpp_get_n_mutations ⟨[1, 0, 1], [1, NA_INTEGER, 2], ⟨2, 2, [0, 3, 3, 0]⟩⟩ 1 3
        = .error e)
      ↔ (caseValue [1, 0, 1] 1 = 0 ∨ caseValue [1, 0, 1] 3 = 0)) :=
  ⟨by decide, by decide, by decide, by decide,
    (get_n_mutations_spec ⟨[1, 0, 1], [1, NA_INTEGER, 2], ⟨2, 2, [0, 3, 3, 0]⟩⟩ 1 3
      (by decide) (by decide) (by decide)).1⟩

/-- C10: `cpp_sample1` applied to the empty vector stops with an error for
every draw of the random source, and returns no value. -/
theorem sample1_empty_fails (u : ℚ) :
    cpp_sample1 u [] = .error (.stop .emptySample) ∧
      ∀ v : Nat, cpp_sample1 u [] ≠ .ok v := by
  have h : cpp_sample1 u [] = .error (.stop .emptySample) := by
    unfold cpp_sample1
    rw [if_pos (by simp)]
  refine ⟨h, ?_⟩
  intro v hv
  rw [h] at hv
  cases hv

/-- C11, as stated, fails twice. The result is a `size_t`: on the vector `[-1]`
and the draw `1/2`, `cpp_sample1` returns `18446744073709551615`, which is not
an element of the vector. The product is a `double`: on `[4, 7, 9]` and the
draw `0x1.5555555555555p-2`, the `double` nearest to one third and below it,
the product is rounded to one and `cpp_sample1` returns `7`, while
`x[floor (u * length)]` is `4`. -/
theorem sample1_negative_counterexample :
    (IsDouble (1 / 2) ∧
      cpp_sample1 (1 / 2) [-1] = .ok 18446744073709551615) ∧
    (IsDouble (6004799503160661 / 2 ^ 54) ∧
      (0 : ℚ) ≤ 6004799503160661 / 2 ^ 54 ∧ (6004799503160661 / 2 ^ 54 : ℚ) < 1 ∧
      cpp_sample1 (6004799503160661 / 2 ^ 54) [4, 7, 9] = .ok 7 ∧
      ([4, 7, 9] : List Int).getD
        ((6004799503160661 / 2 ^ 54 : ℚ) * (([4, 7, 9] : List Int).length : ℚ)).floor.toNat 0
          = 4) := by
  refine ⟨⟨isDouble_half, ?_⟩, isDouble_third, by norm_num, by norm_num, ?_, ?_⟩
  · have hlt := sampleSlot_lt (1 / 2) 1 isDouble_half (by norm_num) (by norm_num)
      (by norm_num) (by norm_num)
    have h0 : sampleSlot (1 / 2) ([-1] : List Int).length = 0 := by
      simp only [List.length_singleton]
      omega
    rw [sample1_eq (1 / 2) [-1] (by rw [h0]; simp), h0]
    decide
  · have h1 : sampleSlot (6004799503160661 / 2 ^ 54) ([4, 7, 9] : List Int).length = 1 :=
      sampleSlot_third_three
    rw [sample1_eq _ [4, 7, 9] (by rw [h1]; simp), h1]
    decide
  · have hfloor : ((6004799503160661 / 2 ^ 54 : ℚ)
        * (([4, 7, 9] : List Int).length : ℚ)).floor = 0 := by
      change ⌊(6004799503160661 / 2 ^ 54 : ℚ) * (([4, 7, 9] : List Int).length : ℚ)⌋ = 0
      rw [Int.floor_eq_iff]
      norm_num
    rw [hfloor]
    decide

/-- C11, amended: on a non-empty vector of non-negative `int`s and a `double`
draw `u` with `0 ≤ u < 1`, `cpp_sample1` succeeds; its subscript, the `double`
product `u * length` truncated, is inside the vector and the returned value is
the element at that subscript, an element of the vector; the subscript is
`floor (u * length)`, or one more when the product is rounded up to the next
integer; on a singleton the single element is returned. -/
theorem sample1_nonempty (u : ℚ) (x : List Int) (hx : x ≠ []) (hlen : x.length < 2 ^ 53)
    (hd : IsDouble u) (hu0 : 0 ≤ u) (hu1 : u < 1)
    (hnn : ∀ a ∈ x, 0 ≤ a ∧ a ≤ INT_MAX) :
    ∃ n : Nat, cpp_sample1 u x = .ok n ∧
      sampleSlot u x.length < x.length ∧
      (n : Int) = x.getD (sampleSlot u x.length) 0 ∧
      (n : Int) ∈ x ∧
      (sampleSlot u x.length = (u * (x.length : ℚ)).floor.toNat ∨
        (sampleSlot u x.length = (u * (x.length : ℚ)).floor.toNat + 1 ∧
          mulDouble u (x.length : ℚ)
            = (((u * (x.length : ℚ)).floor.toNat + 1 : Nat) : ℚ))) ∧
      (∀ a : Int, x = [a] → (n : Int) = a) := by
  have hpos : 0 < x.length := List.length_pos.2 hx
  have hlen' : ((x.length : Nat) : ℚ) < 2 ^ 53 := by exact_mod_cast hlen
  have hidx := sampleSlot_lt u x.length hd hu0 hu1 hpos hlen'
  have hmem := getD_mem x _ hidx
  obtain ⟨r0, r1⟩ := hnn _ hmem
  have hval : ((toSizeT (x.getD (sampleSlot u x.length) 0) : Nat) : Int)
      = x.getD (sampleSlot u x.length) 0 := by
    unfold toSizeT SIZE_MOD
    unfold INT_MAX at r1
    omega
  have hq : u * (x.length : ℚ) < 2 ^ 53 := by
    have : u * (x.length : ℚ) ≤ 1 * (x.length : ℚ) :=
      mul_le_mul_of_nonneg_right hu1.le (by positivity)
    linarith
  refine ⟨_, sample1_eq u x hidx, hidx, hval, ?_, sampleSlot_floor u x.length hu0 hlen' hq, ?_⟩
  · rw [hval]; exact hmem
  · intro a ha
    rw [hval]
    subst ha
    have h0 : sampleSlot u ([a] : List Int).length = 0 := by
      simp only [List.length_singleton] at hidx ⊢
      omega
    rw [h0]
    rfl

/-- C11 amended, at `x = [4, 7, 9]` and the draw `1/2`. -/
theorem sample1_nonempty_witness :
    ([4, 7, 9] : List Int) ≠ [] ∧ ([4, 7, 9] : List Int).length < 2 ^ 53 ∧
    IsDouble (1 / 2) ∧ (0 : ℚ) ≤ 1 / 2 ∧ (1 / 2 : ℚ) < 1 ∧
    (∀ a ∈ ([4, 7, 9] : List Int), 0 ≤ a ∧ a ≤ INT_MAX) ∧
    ∃ n : Nat, cpp_sample1 (1 / 2) [4, 7, 9] = .ok n ∧
      sampleSlot (1 / 2) ([4, 7, 9] : List Int).length < ([4, 7, 9] : List Int).length ∧
      (n : Int) = ([4, 7, 9] : List Int).getD
        (sampleSlot (1 / 2) ([4, 7, 9] : List Int).length) 0 ∧
      (n : Int) ∈ ([4, 7, 9] : List Int) ∧
      (sampleSlot (1 / 2) ([4, 7, 9] : List Int).length
          = ((1 / 2 : ℚ) * (([4, 7, 9] : List Int).length : ℚ)).floor.toNat ∨
        (sampleSlot (1 / 2) ([4, 7, 9] : List Int).length
            = ((1 / 2 : ℚ) * (([4, 7, 9] : List Int).length : ℚ)).floor.toNat + 1 ∧
          mulDouble (1 / 2) (([4, 7, 9] : List Int).length : ℚ)
            = ((((1 / 2 : ℚ) * (([4, 7, 9] : List Int).length : ℚ)).floor.toNat + 1 : Nat)
                : ℚ))) ∧
      (∀ a : Int, ([4, 7, 9] : List Int) = [a] → (n : Int) = a) :=
  ⟨by decide, by decide, isDouble_half, by norm_num, by norm_num, by decide,
    sample1_nonempty (1 / 2) [4, 7, 9] (by decide) (by decide) isDouble_half
      (by norm_num) (by norm_num) (by decide)⟩

/-- C13, as stated, fails: on `alpha = [NA, 1]` the identifiers 0 and 3 are not
cases, and `cpp_find_descendents` returns the empty vector for both instead of
failing. -/
theorem find_descendents_unchecked_counterexample :
    ¬ IsCase ([NA_INTEGER, 1] : List Int).length 0 ∧
    cpp_find_descendents [NA_INTEGER, 1] 0 = .ok [] ∧
    ¬ IsCase ([NA_INTEGER, 1] : List Int).length 3 ∧
    cpp_find_descendents [NA_INTEGER, 1] 3 = .ok [] := by
  decide

/-- C13, amended: the operations do not check the case identifier. On a
well-formed tree state and an identifier `i` that is not a case,
`cpp_find_descendents` returns a normal result, the empty vector when `i` fits
an `int`; `cpp_are_possible_ancestors` returns the empty vector when there is
no case at all; otherwise it and `cpp_pick_possible_ancestor`, as well as
`cpp_find_local_cases`, `cpp_swap_cases` and `cpp_get_n_mutations`, subscript a
vector outside its bounds, and none of them stops with an error of its own. -/
theorem case_index_unchecked (p : Param) (data : Data) (i j : Nat) (u : ℚ)
    (hW : WellFormed p) (hd : data.has_dna.length = p.alpha.length)
    (hsz : i < SIZE_MOD) (hout : ¬ IsCase p.alpha.length i) :
    (∃ r, cpp_find_descendents p.alpha i = .ok r) ∧
    ((i : Int) ≤ INT_MAX → cpp_find_descendents p.alpha i = .ok []) ∧
    (p.t_inf = [] → cpp_are_possible_ancestors p.t_inf i = .ok []) ∧
    (p.t_inf ≠ [] →
      cpp_are_possible_ancestors p.t_inf i = .error .outOfRange ∧
      cpp_pick_possible_ancestor u p.t_inf i = .error .outOfRange) ∧
    cpp_find_local_cases p.alpha i = .error .outOfRange ∧
    cpp_swap_cases p i = .error .outOfRange ∧
    cpp_get_n_mutations data i j = .error .outOfRange := by
  have hN := hW.1.1
  have ht := hW.2
  refine ⟨⟨_, find_descendents_ok p.alpha i hN⟩, ?_, ?_, ?_,
    find_local_cases_outside p.alpha i hN hsz hout, swap_cases_outside p i hN hsz hout,
    get_n_mutations_outside data i j (by rw [hd]; exact hN) hsz (by rw [hd]; exact hout)⟩
  · intro hi
    rw [find_descendents_ok p.alpha i hN, descCases_outside p.alpha i hW.1 hout hi]
  · intro hnil
    rw [hnil]
    rfl
  · intro hne
    have h := possible_ancestors_outside p.t_inf i (by rw [ht]; exact hN) hsz
      (by rw [ht]; exact hout) hne
    refine ⟨h, ?_⟩
    unfold cpp_pick_possible_ancestor
    rw [h]
    rfl

/-- C13 amended, at `alpha = [NA, 1]`, `t_inf = [3, 7]`, a dataset of two cases
and the identifier 0. -/
theorem case_index_unchecked_witness :
    WellFormed ⟨[NA_INTEGER, 1], [3, 7]⟩ ∧
    ([1, 1] : List Int).length = ([NA_INTEGER, 1] : List Int).length ∧
    0 < SIZE_MOD ∧ ¬ IsCase ([NA_INTEGER, 1] : List Int).length 0 ∧
    (∃ r, cpp_find_descendents [NA_INTEGER, 1] 0 = .ok r) ∧
    (((0 : Nat) : Int) ≤ INT_MAX → cpp_find_descendents [NA_INTEGER, 1] 0 = .ok []) ∧
    (([3, 7] : List Int) = [] → cpp_are_possible_ancestors [3, 7] 0 = .ok []) ∧
    (([3, 7] : List Int) ≠ [] →
      cpp_are_possible_ancestors [3, 7] 0 = .error .outOfRange ∧
      cpp_pick_possible_ancestor (1 / 2) [3, 7] 0 = .error .outOfRange) ∧
    cpp_find_local_cases [NA_INTEGER, 1] 0 = .error .outOfRange ∧
    cpp_swap_cases ⟨[NA_INTEGER, 1], [3, 7]⟩ 0 = .error .outOfRange ∧
    cpp_get_n_mutations ⟨[1, 1], [1, 2], ⟨2, 2, [0, 3, 3, 0]⟩⟩ 0 1 = .error .outOfRange :=
  ⟨by decide, by decide, by decide, by decide,
    case_index_unchecked ⟨[NA_INTEGER, 1], [3, 7]⟩ ⟨[1, 1], [1, 2], ⟨2, 2, [0, 3, 3, 0]⟩⟩
      0 1 (1 / 2) (by decide) (by decide) (by decide) (by decide)⟩

/-- C14: on a well-formed tree state without cycles and a case `i` whose
ancestor `x = alpha[i]` is a case that is not imported, after `cpp_swap_cases`
the descendents of `x` are the old descendents of `i`, the descendents of `i`
are `x` and the old descendents of `x` other than `i`, the cases whose ancestor
is `i` or `x` together with the root of the pair are the same before (root `x`)
and after (root `i`), and the ancestor of the new root `i` is the old ancestor
of `x`. -/
theorem swap_cases_descendents (p : Param) (i x : Nat) (hW : WellFormed p)
    (hF : NoCycles p.alpha) (hi : IsCase p.alpha.length i)
    (hxv : (x : Int) = caseValue p.alpha i) (hax : caseValue p.alpha x ≠ NA_INTEGER) :
    ∃ (out : Param) (old_i old_x new_i : List Int),
      cpp_swap_cases p i = .ok out ∧
      cpp_find_descendents p.alpha i = .ok old_i ∧
      cpp_find_descendents p.alpha x = .ok old_x ∧
      cpp_find_descendents out.alpha x = .ok old_i ∧
      cpp_find_descendents out.alpha i = .ok new_i ∧
      (∀ d : Int, d ∈ new_i ↔ (d = (x : Int) ∨ (d ∈ old_x ∧ d ≠ (i : Int)))) ∧
      (∀ k, IsCase p.alpha.length k →
        ((caseValue out.alpha k = (i : Int) ∨ caseValue out.alpha k = (x : Int) ∨ k = i)
          ↔ (caseValue p.alpha k = (i : Int) ∨ caseValue p.alpha k = (x : Int) ∨ k = x))) ∧
      caseValue out.alpha x = (i : Int) ∧
      caseValue out.alpha i = caseValue p.alpha x := by
  obtain ⟨hxc, out, hout, hl1, _, ha, _⟩ := swap_cases_pointwise p i x hW hi hxv hax
  obtain ⟨n1, n2, n3⟩ := noCycles_local p.alpha hF i x hi hxc hxv
  have hWo := swap_wellFormedAlpha p.alpha out.alpha i x hW.1 hi hxc hl1 ha
  have hV := wellFormedAlpha_isIntegerVector _ hW.1
  have hVo := wellFormedAlpha_isIntegerVector _ hWo
  have hN := hW.1.1
  have hiN : (i : Int) ≤ INT_MAX := by have := hi.2; omega
  have hxN : (x : Int) ≤ INT_MAX := by have := hxc.2; omega
  have hni : (i : Int) ≠ (x : Int) := by omega
  -- the entry of a case other than `i` and `x` after the swap
  have hother : ∀ k, IsCase p.alpha.length k → k ≠ x → k ≠ i →
      caseValue out.alpha k = swapIds i x (caseValue p.alpha k) := by
    intro k hk c1 c2
    rw [ha k hk, if_neg c1, if_neg c2]
    rfl
  have hox : caseValue out.alpha x = (i : Int) := by rw [ha x hxc, if_pos rfl]
  have hoi : caseValue out.alpha i = caseValue p.alpha x := by
    rw [ha i hi, if_neg (fun h => n1 h.symm), if_pos rfl]
  have hdx : descCases out.alpha x = descCases p.alpha i := by
    apply descCases_congr _ _ _ _ hVo hV hxN hiN hl1
    intro k hk
    by_cases c1 : k = x
    · subst c1
      rw [hox]
      exact ⟨fun h => absurd h hni, fun h => absurd h n2⟩
    · by_cases c2 : k = i
      · subst c2
        rw [hoi, ← hxv]
        exact ⟨fun h => absurd h n3, fun h => absurd h.symm hni⟩
      · rw [hother k hk c1 c2]
        unfold swapIds
        split_ifs <;> constructor <;> intro h <;> omega
  have hmem : ∀ d : Int, d ∈ descCases out.alpha i
      ↔ (d = (x : Int) ∨ (d ∈ descCases p.alpha x ∧ d ≠ (i : Int))) := by
    intro d
    rw [mem_descCases out.alpha i hVo hiN, mem_descCases p.alpha x hV hxN, hl1]
    constructor
    · rintro ⟨k, hk, rfl, hv⟩
      by_cases c1 : k = x
      · left; rw [c1]
      · right
        by_cases c2 : k = i
        · subst c2
          rw [hoi] at hv
          exact absurd hv n2
        · refine ⟨⟨k, hk, rfl, ?_⟩, by omega⟩
          rw [hother k hk c1 c2] at hv
          unfold swapIds at hv
          split_ifs at hv <;> omega
    · rintro (rfl | ⟨⟨k, hk, rfl, hv⟩, hne⟩)
      · exact ⟨x, hxc, rfl, hox⟩
      · have c2 : k ≠ i := by rintro rfl; exact hne rfl
        have c1 : k ≠ x := by rintro rfl; exact n3 hv
        refine ⟨k, hk, rfl, ?_⟩
        rw [hother k hk c1 c2, hv]
        unfold swapIds
        rw [if_neg (fun h => hni h.symm), if_pos rfl]
  refine ⟨out, descCases p.alpha i, descCases p.alpha x, descCases out.alpha i, hout,
    find_descendents_ok _ _ hN, find_descendents_ok _ _ hN, ?_,
    find_descendents_ok _ _ hWo.1, hmem, ?_, hox, hoi⟩
  · rw [find_descendents_ok _ _ hWo.1, hdx]
  · intro k hk
    by_cases c1 : k = x
    · subst c1
      rw [hox]
      exact ⟨fun _ => Or.inr (Or.inr rfl), fun _ => Or.inl rfl⟩
    · by_cases c2 : k = i
      · subst c2
        exact ⟨fun _ => Or.inr (Or.inl hxv.symm), fun _ => Or.inr (Or.inr rfl)⟩
      · rw [hother k hk c1 c2]
        unfold swapIds
        split_ifs <;> constructor <;> intro h <;> omega

/-- C14 at `alpha = [NA, 1, 2, 2]`, `t_inf = [5, 8, 11, 9]`, `i = 3`, `x = 2`. -/
theorem swap_cases_descendents_witness :
    WellFormed ⟨[NA_INTEGER, 1, 2, 2], [5, 8, 11, 9]⟩ ∧
    NoCycles [NA_INTEGER, 1, 2, 2] ∧
    IsCase ([NA_INTEGER, 1, 2, 2] : List Int).length 3 ∧
    ((2 : Nat) : Int) = caseValue [NA_INTEGER, 1, 2, 2] 3 ∧
    caseValue [NA_INTEGER, 1, 2, 2] 2 ≠ NA_INTEGER ∧
    ∃ (out : Param) (old_i old_x new_i : List Int),
      cpp_swap_cases ⟨[NA_INTEGER, 1, 2, 2], [5, 8, 11, 9]⟩ 3 = .ok out ∧
      cpp_find_descendents [NA_INTEGER, 1, 2, 2] 3 = .ok old_i ∧
      cpp_find_descendents [NA_INTEGER, 1, 2, 2] 2 = .ok old_x ∧
      cpp_find_descendents out.alpha 2 = .ok old_i ∧
      cpp_find_descendents out.alpha 3 = .ok new_i ∧
      (∀ d : Int, d ∈ new_i ↔ (d = ((2 : Nat) : Int) ∨ (d ∈ old_x ∧ d ≠ ((3 : Nat) : Int)))) ∧
      (∀ k, IsCase 4 k →
        ((caseValue out.alpha k = ((3 : Nat) : Int) ∨
            caseValue out.alpha k = ((2 : Nat) : Int) ∨ k = 3)
          ↔ (caseValue [NA_INTEGER, 1, 2, 2] k = ((3 : Nat) : Int) ∨
              caseValue [NA_INTEGER, 1, 2, 2] k = ((2 : Nat) : Int) ∨ k = 2))) ∧
      caseValue out.alpha 2 = ((3 : Nat) : Int) ∧
      caseValue out.alpha 3 = caseValue [NA_INTEGER, 1, 2, 2] 2 :=
  ⟨by decide, noCycles_chain, by decide, by decide, by decide,
    swap_cases_descendents ⟨[NA_INTEGER, 1, 2, 2], [5, 8, 11, 9]⟩ 3 2
      (by decide) noCycles_chain (by decide) (by decide) (by decide)⟩

/-- C15, as stated, fails: on the three distinct elements `[10, 20, 30]` the
draw `0x1.5555555555555p-2`, a `double` in `[0/3, 1/3)`, has the `double`
product one with the size and selects position 1, not position 0. -/
theorem sample1_interval_counterexample :
    IsDouble (6004799503160661 / 2 ^ 54) ∧
    ([10, 20, 30] : List Int).Nodup ∧
    ((0 : Nat) : ℚ) / ((([10, 20, 30] : List Int).length : Nat) : ℚ)
      ≤ 6004799503160661 / 2 ^ 54 ∧
    (6004799503160661 / 2 ^ 54 : ℚ)
      < (((0 : Nat) : ℚ) + 1) / ((([10, 20, 30] : List Int).length : Nat) : ℚ) ∧
    cpp_sample1 (6004799503160661 / 2 ^ 54) [10, 20, 30] = .ok 20 ∧
    cpp_sample1 (6004799503160661 / 2 ^ 54) [10, 20, 30]
      ≠ .ok (([10, 20, 30] : List Int).getD 0 0).toNat := by
  have h1 : sampleSlot (6004799503160661 / 2 ^ 54) ([10, 20, 30] : List Int).length = 1 :=
    sampleSlot_third_three
  have hval : cpp_sample1 (6004799503160661 / 2 ^ 54) [10, 20, 30] = .ok 20 := by
    rw [sample1_eq _ [10, 20, 30] (by rw [h1]; simp), h1]
    decide
  refine ⟨isDouble_third, by decide, by norm_num, by norm_num, hval, ?_⟩
  rw [hval]
  decide

/-- C15, amended: on a vector of `k ≥ 1` distinct non-negative `int`s, a
position `m < k` and a `double` draw `u` in `[0, 1)`, `cpp_sample1` returns
`x[m]` exactly when `m/k ≤ u < (m+1)/k` and the `double` product `u * k` is not
rounded up to `m + 1`, or `u < m/k` and the product is rounded up to `m`; a
product is rounded up to a positive integer `M` only when
`M ≤ u * k * (1 + 2 ^ (-53))`; the interval `[m/k, (m+1)/k)` has length `1/k`. -/
theorem sample1_selects (u : ℚ) (x : List Int) (m : Nat) (hnd : x.Nodup)
    (hnn : ∀ a ∈ x, 0 ≤ a ∧ a ≤ INT_MAX) (hlen : x.length < 2 ^ 53)
    (hm : m < x.length) (hd : IsDouble u) (hu0 : 0 ≤ u) (hu1 : u < 1) :
    (cpp_sample1 u x = .ok (x.getD m 0).toNat
      ↔ (((m : ℚ) / (x.length : ℚ) ≤ u ∧ u < ((m : ℚ) + 1) / (x.length : ℚ) ∧
            mulDouble u (x.length : ℚ) ≠ (m : ℚ) + 1) ∨
          (u < (m : ℚ) / (x.length : ℚ) ∧ mulDouble u (x.length : ℚ) = (m : ℚ)))) ∧
    (∀ M : Nat, 0 < M → u * (x.length : ℚ) < (M : ℚ) →
      mulDouble u (x.length : ℚ) = (M : ℚ) →
        (M : ℚ) ≤ u * (x.length : ℚ) * (1 + 1 / 2 ^ 53)) ∧
    ((m : ℚ) + 1) / (x.length : ℚ) - (m : ℚ) / (x.length : ℚ) = 1 / (x.length : ℚ) := by
  have hpos : 0 < x.length := by omega
  have hk : (0 : ℚ) < (x.length : ℚ) := by exact_mod_cast hpos
  have hlen' : ((x.length : Nat) : ℚ) < 2 ^ 53 := by exact_mod_cast hlen
  have hidx := sampleSlot_lt u x.length hd hu0 hu1 hpos hlen'
  have hq : u * (x.length : ℚ) < 2 ^ 53 := by
    have : u * (x.length : ℚ) ≤ 1 * (x.length : ℚ) :=
      mul_le_mul_of_nonneg_right hu1.le hk.le
    linarith
  refine ⟨?_, ?_, ?_⟩
  · rw [sample1_eq u x hidx]
    obtain ⟨r0, r1⟩ := hnn _ (getD_mem x _ hidx)
    obtain ⟨s0, s1⟩ := hnn _ (getD_mem x _ hm)
    have hval : toSizeT (x.getD (sampleSlot u x.length) 0)
        = (x.getD (sampleSlot u x.length) 0).toNat := by
      unfold toSizeT SIZE_MOD
      unfold INT_MAX at r1
      omega
    have hslot : (Except.ok (toSizeT (x.getD (sampleSlot u x.length) 0)) : Result Nat)
        = .ok (x.getD m 0).toNat ↔ sampleSlot u x.length = m := by
      rw [hval]
      constructor
      · intro h
        have h := Except.ok.inj h
        have h2 : x.getD (sampleSlot u x.length) 0 = x.getD m 0 := by omega
        rw [List.getD_eq_getElem _ _ hidx, List.getD_eq_getElem _ _ hm] at h2
        exact (hnd.getElem_inj_iff).1 h2
      · intro h
        rw [h]
    rw [hslot, sampleSlot_eq_iff u x.length m hu0 hlen' hq, div_le_iff₀ hk, lt_div_iff₀ hk,
      lt_div_iff₀ hk]
  · intro M hM hlt hround
    have hqpos : 0 < u * (x.length : ℚ) := by
      by_contra hnp
      have h0 : u * (x.length : ℚ) ≤ 0 := le_of_not_gt hnp
      have := roundDouble_le_nat (u * (x.length : ℚ)) 0 hq (by simpa using h0)
      unfold mulDouble at hround
      rw [hround] at this
      have hM' : (0 : ℚ) < (M : ℚ) := by exact_mod_cast hM
      simp only [Nat.cast_zero] at this
      linarith
    exact roundDouble_up_close _ M hqpos hM hround
  · field_simp

/-- C15 amended, at `x = [10, 20, 30]`, position 1 and the draw `1/2`. -/
theorem sample1_selects_witness :
    ([10, 20, 30] : List Int).Nodup ∧
    (∀ a ∈ ([10, 20, 30] : List Int), 0 ≤ a ∧ a ≤ INT_MAX) ∧
    ([10, 20, 30] : List Int).length < 2 ^ 53 ∧
    1 < ([10, 20, 30] : List Int).length ∧
    IsDouble (1 / 2) ∧ (0 : ℚ) ≤ 1 / 2 ∧ (1 / 2 : ℚ) < 1 ∧
    (cpp_sample1 (1 / 2) [10, 20, 30] = .ok (([10, 20, 30] : List Int).getD 1 0).toNat
      ↔ ((((1 : Nat) : ℚ) / (([10, 20, 30] : List Int).length : ℚ) ≤ 1 / 2 ∧
            (1 / 2 : ℚ) < (((1 : Nat) : ℚ) + 1) / (([10, 20, 30] : List Int).length : ℚ) ∧
            mulDouble (1 / 2) (([10, 20, 30] : List Int).length : ℚ) ≠ ((1 : Nat) : ℚ) + 1) ∨
          ((1 / 2 : ℚ) < ((1 : Nat) : ℚ) / (([10, 20, 30] : List Int).length : ℚ) ∧
            mulDouble (1 / 2) (([10, 20, 30] : List Int).length : ℚ) = ((1 : Nat) : ℚ)))) :=
  ⟨by decide, by decide, by decide, by decide, isDouble_half, by norm_num, by norm_num,
    (sample1_selects (1 / 2) [10, 20, 30] 1 (by decide) (by decide) (by decide) (by decide)
      isDouble_half (by norm_num) (by norm_num)).1⟩

/-- C16: on a well-formed tree state and a case `i` whose ancestor
`x = alpha[i]` is a case that is not imported, swapping `i` and then swapping
`x` returns the original state, ancestry and infection times alike. -/
theorem swap_then_swap_ancestor (p : Param) (i x : Nat) (hW : WellFormed p)
    (hi : IsCase p.alpha.length i) (hxv : (x : Int) = caseValue p.alpha i)
    (hax : caseValue p.alpha x ≠ NA_INTEGER) :
    (cpp_swap_cases p i >>= fun s => cpp_swap_cases s x) = .ok p := by
  obtain ⟨hxc, out, hout, hl1, hl2, ha, ht⟩ := swap_cases_pointwise p i x hW hi hxv hax
  have hWo : WellFormed out :=
    ⟨swap_wellFormedAlpha p.alpha out.alpha i x hW.1 hi hxc hl1 ha, by rw [hl1, hl2]⟩
  have hna : caseValue p.alpha i ≠ NA_INTEGER := by
    rw [← hxv]; unfold NA_INTEGER; omega
  have hxo : IsCase out.alpha.length x := by rw [hl1]; exact hxc
  have hio : IsCase out.alpha.length i := by rw [hl1]; exact hi
  have hxv' : (i : Int) = caseValue out.alpha x := by
    rw [ha x hxc, if_pos rfl]
  have hax' : caseValue out.alpha i ≠ NA_INTEGER := by
    rw [ha i hi]
    by_cases c : i = x
    · rw [if_pos c]; unfold NA_INTEGER; omega
    · rw [if_neg c, if_pos rfl]; exact hax
  obtain ⟨_, out2, hout2, hm1, hm2, hb, hs⟩ := swap_cases_pointwise out x i hWo hxo hxv' hax'
  rw [hout, ok_bind, hout2]
  have halpha : out2.alpha = p.alpha := by
    apply list_eq_of_caseValue _ _ (by rw [hm1, hl1])
    intro k hk
    rw [hb k (by rw [hl1]; exact hk)]
    by_cases c1 : k = i
    · subst c1
      rw [if_pos rfl]
      exact hxv
    · rw [if_neg c1]
      by_cases c2 : k = x
      · subst c2
        rw [if_pos rfl, ha i hi, if_neg (fun h => c1 h.symm), if_pos rfl]
      · rw [if_neg c2, ha k hk, if_neg c2, if_neg c1]
        by_cases d1 : caseValue p.alpha k = (i : Int)
        · rw [if_pos d1, if_pos rfl, d1]
        · rw [if_neg d1]
          by_cases d2 : caseValue p.alpha k = (x : Int)
          · rw [if_pos d2]
            by_cases e : (i : Int) = (x : Int)
            · rw [if_pos e, d2, e]
            · rw [if_neg e, if_pos rfl, d2]
          · rw [if_neg d2, if_neg d2, if_neg d1]
  have htinf : out2.t_inf = p.t_inf := by
    apply list_eq_of_caseValue _ _ (by rw [hm2, hl1, hW.2])
    intro k hk
    rw [hW.2] at hk
    rw [hs k (by rw [hl1]; exact hk)]
    by_cases c1 : k = i
    · subst c1
      rw [if_pos rfl, ht x hxc, if_pos rfl]
    · rw [if_neg c1]
      by_cases c2 : k = x
      · subst c2
        rw [if_pos rfl, ht i hi, if_neg (fun h => c1 h.symm), if_pos rfl]
      · rw [if_neg c2, ht k hk, if_neg c2, if_neg c1]
  cases out2
  cases p
  simp only at halpha htinf
  rw [halpha, htinf]

/-- C16 at `alpha = [NA, 1, 2, 2]`, `t_inf = [5, 8, 11, 9]`, `i = 3`, `x = 2`. -/
theorem swap_then_swap_ancestor_witness :
    WellFormed ⟨[NA_INTEGER, 1, 2, 2], [5, 8, 11, 9]⟩ ∧
    IsCase ([NA_INTEGER, 1, 2, 2] : List Int).length 3 ∧
    ((2 : Nat) : Int) = caseValue [NA_INTEGER, 1, 2, 2] 3 ∧
    caseValue [NA_INTEGER, 1, 2, 2] 2 ≠ NA_INTEGER ∧
    (cpp_swap_cases ⟨[NA_INTEGER, 1, 2, 2], [5, 8, 11, 9]⟩ 3
      >>= fun s => cpp_swap_cases s 2) = .ok ⟨[NA_INTEGER, 1, 2, 2], [5, 8, 11, 9]⟩ :=
  ⟨by decide, by decide, by decide, by decide,
    swap_then_swap_ancestor ⟨[NA_INTEGER, 1, 2, 2], [5, 8, 11, 9]⟩ 3 2
      (by decide) (by decide) (by decide) (by decide)⟩

/-- C17: on a well-formed tree state without cycles and a case `i` whose
ancestor `x = alpha[i]` is a case that is not imported, the state returned by
`cpp_swap_cases` is the input renamed by the transposition `s` of `i` and `x`:
`alpha'[k] = s (alpha[s k])` and `t_inf'[k] = t_inf[s k]` for every case `k`,
where `s` fixes the imported marker. -/
theorem swap_cases_relabels (p : Param) (i x : Nat) (hW : WellFormed p)
    (hF : NoCycles p.alpha) (hi : IsCase p.alpha.length i)
    (hxv : (x : Int) = caseValue p.alpha i) (hax : caseValue p.alpha x ≠ NA_INTEGER) :
    ∃ out : Param, cpp_swap_cases p i = .ok out ∧
      swapIds i x NA_INTEGER = NA_INTEGER ∧
      (∀ k : Nat, swapIds i x (k : Int) = (swapCase i x k : Int)) ∧
      swapCase i x i = x ∧ swapCase i x x = i ∧
      (∀ k, k ≠ i → k ≠ x → swapCase i x k = k) ∧
      (∀ k, IsCase p.alpha.length k →
        caseValue out.alpha k = swapIds i x (caseValue p.alpha (swapCase i x k)) ∧
        caseValue out.t_inf k = caseValue p.t_inf (swapCase i x k)) := by
  obtain ⟨hxc, out, hout, _, _, ha, ht⟩ := swap_cases_pointwise p i x hW hi hxv hax
  obtain ⟨n1, n2, n3⟩ := noCycles_local p.alpha hF i x hi hxc hxv
  refine ⟨out, hout, swapIds_NA i x, swapIds_cast i x, ?_, ?_, ?_, ?_⟩
  · unfold swapCase; rw [if_pos rfl]
  · unfold swapCase; rw [if_neg n1, if_pos rfl]
  · intro k h1 h2
    unfold swapCase; rw [if_neg h1, if_neg h2]
  · intro k hk
    exact ⟨swap_relabel_alpha p.alpha out.alpha i x hxv n1 n2 n3 ha k hk,
      swap_relabel_t_inf p.t_inf out.t_inf p.alpha.length i x ht k hk⟩

/-- C17 at `alpha = [NA, 1, 2, 2]`, `t_inf = [5, 8, 11, 9]`, `i = 3`, `x = 2`. -/
theorem swap_cases_relabels_witness :
    WellFormed ⟨[NA_INTEGER, 1, 2, 2], [5, 8, 11, 9]⟩ ∧
    NoCycles [NA_INTEGER, 1, 2, 2] ∧
    IsCase ([NA_INTEGER, 1, 2, 2] : List Int).length 3 ∧
    ((2 : Nat) : Int) = caseValue [NA_INTEGER, 1, 2, 2] 3 ∧
    caseValue [NA_INTEGER, 1, 2, 2] 2 ≠ NA_INTEGER ∧
    ∃ out : Param, cpp_swap_cases ⟨[NA_INTEGER, 1, 2, 2], [5, 8, 11, 9]⟩ 3 = .ok out ∧
      swapIds 3 2 NA_INTEGER = NA_INTEGER ∧
      (∀ k : Nat, swapIds 3 2 (k : Int) = (swapCase 3 2 k : Int)) ∧
      swapCase 3 2 3 = 2 ∧ swapCase 3 2 2 = 3 ∧
      (∀ k, k ≠ 3 → k ≠ 2 → swapCase 3 2 k = k) ∧
      (∀ k, IsCase 4 k →
        caseValue out.alpha k
          = swapIds 3 2 (caseValue [NA_INTEGER, 1, 2, 2] (swapCase 3 2 k)) ∧
        caseValue out.t_inf k = caseValue [5, 8, 11, 9] (swapCase 3 2 k)) :=
  ⟨by decide, noCycles_chain, by decide, by decide, by decide,
    swap_cases_relabels ⟨[NA_INTEGER, 1, 2, 2], [5, 8, 11, 9]⟩ 3 2
      (by decide) noCycles_chain (by decide) (by decide) (by decide)⟩

/-- C18: on a well-formed tree state in which every case that is not imported
is infected strictly after its ancestor, and a case `i`, the state returned by
`cpp_swap_cases` has the same property, and its infection times are a
permutation of the input ones. -/
theorem swap_cases_time_ordered (p : Param) (i : Nat) (hW : WellFormed p)
    (hT : TimeOrdered p) (hi : IsCase p.alpha.length i) :
    ∃ out : Param, cpp_swap_cases p i = .ok out ∧ TimeOrdered out ∧
      out.t_inf.Perm p.t_inf := by
  rcases wellFormed_caseValue _ hW.1 i hi with hna | ⟨h1, h2⟩
  · exact ⟨p, swap_cases_imported p i hW.1.1 hi hna, hT, List.Perm.refl _⟩
  · obtain ⟨x, hxv⟩ : ∃ x : Nat, (x : Int) = caseValue p.alpha i :=
      ⟨(caseValue p.alpha i).toNat, by omega⟩
    by_cases hax : caseValue p.alpha x = NA_INTEGER
    · exact ⟨p, swap_ancestor_imported_named p i x hW hi hxv hax, hT, List.Perm.refl _⟩
    · obtain ⟨hxc, out, hout, hl1, _, ha, ht⟩ := swap_cases_pointwise p i x hW hi hxv hax
      obtain ⟨n1, n2, n3⟩ := timeOrdered_local p hT i x hi hxc hxv hax
      refine ⟨out, hout, ?_, swap_t_inf_perm p out i x hW hi hxv hax hout⟩
      intro k hk hne
      rw [hl1] at hk
      have hk0 := swapCase_isCase p.alpha.length i x k hi hxc hk
      rw [swap_relabel_alpha p.alpha out.alpha i x hxv n1 n2 n3 ha k hk] at hne ⊢
      rw [swap_relabel_t_inf p.t_inf out.t_inf p.alpha.length i x ht k hk]
      rcases wellFormed_caseValue _ hW.1 _ hk0 with hna | ⟨r1, r2⟩
      · rw [hna, swapIds_NA] at hne
        exact absurd rfl hne
      · obtain ⟨m, hm⟩ : ∃ m : Nat, caseValue p.alpha (swapCase i x k) = (m : Int) :=
          ⟨(caseValue p.alpha (swapCase i x k)).toNat, by omega⟩
        have hmc : IsCase p.alpha.length m := ⟨by omega, by omega⟩
        have hord := hT _ hk0 (by rw [hm]; unfold NA_INTEGER; omega)
        rw [hm, Int.toNat_ofNat] at hord
        rw [hm, swapIds_cast, Int.toNat_ofNat,
          swap_relabel_t_inf p.t_inf out.t_inf p.alpha.length i x ht _
            (swapCase_isCase p.alpha.length i x m hi hxc hmc),
          swapCase_involutive]
        exact hord

/-- C18 at `alpha = [NA, 1, 2, 2]`, `t_inf = [5, 8, 11, 9]`, `i = 3`. -/
theorem swap_cases_time_ordered_witness :
    WellFormed ⟨[NA_INTEGER, 1, 2, 2], [5, 8, 11, 9]⟩ ∧
    TimeOrdered ⟨[NA_INTEGER, 1, 2, 2], [5, 8, 11, 9]⟩ ∧
    IsCase ([NA_INTEGER, 1, 2, 2] : List Int).length 3 ∧
    ∃ out : Param, cpp_swap_cases ⟨[NA_INTEGER, 1, 2, 2], [5, 8, 11, 9]⟩ 3 = .ok out ∧
      TimeOrdered out ∧ out.t_inf.Perm [5, 8, 11, 9] :=
  ⟨by decide, timeOrdered_chain, by decide,
    swap_cases_time_ordered ⟨[NA_INTEGER, 1, 2, 2], [5, 8, 11, 9]⟩ 3
      (by decide) timeOrdered_chain (by decide)⟩

/-- C19: on a well-formed tree state and a case `i`, `cpp_swap_cases` returns
vectors of the input length, and a case is imported in the returned ancestry
if and only if it is imported in the input ancestry. -/
theorem swap_cases_keeps_imported (p : Param) (i : Nat) (hW : WellFormed p)
    (hi : IsCase p.alpha.length i) :
    ∃ out : Param, cpp_swap_cases p i = .ok out ∧
      out.alpha.length = p.alpha.length ∧ out.t_inf.length = p.alpha.length ∧
      (∀ k, IsCase p.alpha.length k →
        (caseValue out.alpha k = NA_INTEGER ↔ caseValue p.alpha k = NA_INTEGER)) := by
  rcases wellFormed_caseValue _ hW.1 i hi with hna | ⟨h1, h2⟩
  · exact ⟨p, swap_cases_imported p i hW.1.1 hi hna, rfl, hW.2, fun _ _ => Iff.rfl⟩
  · obtain ⟨x, hxv⟩ : ∃ x : Nat, (x : Int) = caseValue p.alpha i :=
      ⟨(caseValue p.alpha i).toNat, by omega⟩
    by_cases hax : caseValue p.alpha x = NA_INTEGER
    · exact ⟨p, swap_ancestor_imported_named p i x hW hi hxv hax, rfl, hW.2,
        fun _ _ => Iff.rfl⟩
    · obtain ⟨hxc, out, hout, hl1, hl2, ha, _⟩ := swap_cases_pointwise p i x hW hi hxv hax
      refine ⟨out, hout, hl1, hl2, ?_⟩
      intro k hk
      have hi1 := hi.1
      have hx1 := hxc.1
      rw [ha k hk]
      by_cases c1 : k = x
      · subst c1
        rw [if_pos rfl]
        constructor
        · intro h; unfold NA_INTEGER at h; omega
        · intro h; exact absurd h hax
      · rw [if_neg c1]
        by_cases c2 : k = i
        · subst c2
          rw [if_pos rfl]
          constructor
          · intro h; exact absurd h hax
          · intro h; rw [h] at hxv; unfold NA_INTEGER at hxv; omega
        · rw [if_neg c2]
          unfold NA_INTEGER
          split_ifs <;> constructor <;> intro h <;> first | omega | exact h.elim

/-- C19 at `alpha = [NA, 1, 2, 2]`, `t_inf = [5, 8, 11, 9]`, `i = 3`. -/
theorem swap_cases_keeps_imported_witness :
    WellFormed ⟨[NA_INTEGER, 1, 2, 2], [5, 8, 11, 9]⟩ ∧
    IsCase ([NA_INTEGER, 1, 2, 2] : List Int).length 3 ∧
    ∃ out : Param, cpp_swap_cases ⟨[NA_INTEGER, 1, 2, 2], [5, 8, 11, 9]⟩ 3 = .ok out ∧
      out.alpha.length = 4 ∧ out.t_inf.length = 4 ∧
      (∀ k, IsCase 4 k →
        (caseValue out.alpha k = NA_INTEGER
          ↔ caseValue [NA_INTEGER, 1, 2, 2] k = NA_INTEGER)) :=
  ⟨by decide, by decide,
    swap_cases_keeps_imported ⟨[NA_INTEGER, 1, 2, 2], [5, 8, 11, 9]⟩ 3
      (by decide) (by decide)⟩

/-- C20: on a well-formed ancestry vector (forest or not) and a case `i`,
`cpp_find_local_cases` succeeds, so no write falls outside the allocated
vector; the output has length `1 + |descendents of i|` when `i` is imported and
`1 + |descendents of i| + |descendents of alpha[i]|` otherwise, `i` occurring
exactly once among the descendents of `alpha[i]`; and every slot is written:
no entry keeps the value 0 of the allocation. -/
theorem find_local_cases_exact_fill (alpha : List Int) (i : Nat)
    (hW : WellFormedAlpha alpha) (hi : IsCase alpha.length i) :
    ∃ (desc_i out : List Int),
      cpp_find_descendents alpha i = .ok desc_i ∧
      cpp_find_local_cases alpha i = .ok out ∧
      (caseValue alpha i = NA_INTEGER → out.length = 1 + desc_i.length) ∧
      (caseValue alpha i ≠ NA_INTEGER →
        ∃ (x : Nat) (desc_x : List Int),
          (x : Int) = caseValue alpha i ∧
          cpp_find_descendents alpha x = .ok desc_x ∧
          desc_x.count (i : Int) = 1 ∧
          out.length = 1 + desc_i.length + desc_x.length) ∧
      (∀ d ∈ out, 1 ≤ d) := by
  have hN := hW.1
  have hV := wellFormedAlpha_isIntegerVector alpha hW
  have hi1 := hi.1
  have hdesc : ∀ (y : Nat) (d : Int), d ∈ descCases alpha y → 1 ≤ d := by
    intro y d hd
    unfold descCases at hd
    obtain ⟨j, _, rfl⟩ := List.mem_map.1 hd
    omega
  have heq := find_local_cases_eq alpha i hN hi
  rcases wellFormed_caseValue alpha hW i hi with hna | ⟨h1, h2⟩
  · unfold caseValue at hna
    rw [if_neg (by simpa using hna)] at heq
    refine ⟨descCases alpha i, _, find_descendents_ok alpha i hN, heq, ?_, ?_, ?_⟩
    · intro _
      simp only [List.length_append, List.length_cons, List.length_nil]
    · intro h
      exact absurd hna h
    · intro d hd
      rcases List.mem_append.1 hd with h | h
      · rw [List.mem_singleton.1 h]; omega
      · exact hdesc i d h
  · have hna : alpha.getD (i - 1) 0 ≠ NA_INTEGER := by
      unfold caseValue at h1; unfold NA_INTEGER; omega
    have hx : ((toSizeT (caseValue alpha i) : Nat) : Int) = caseValue alpha i := by
      unfold toSizeT SIZE_MOD; unfold INT_MAX at hN; omega
    have hlen := length_descCases_filter_ne alpha i hN hi
    rw [if_pos hna] at heq
    refine ⟨descCases alpha i, _, find_descendents_ok alpha i hN, heq, ?_, ?_, ?_⟩
    · intro h
      unfold caseValue at h
      exact absurd h hna
    · intro _
      refine ⟨toSizeT (caseValue alpha i), descCases alpha (toSizeT (caseValue alpha i)), hx,
        find_descendents_ok alpha _ hN, ?_, ?_⟩
      · apply List.count_eq_one_of_mem (descCases_nodup alpha _)
        unfold descCases
        refine List.mem_map.2 ⟨i - 1, self_mem_descSlots alpha i hi, ?_⟩
        have : i - 1 + 1 = i := by omega
        rw [this]
      · unfold caseValue
        simp only [List.length_append, List.length_cons, List.length_nil]
        omega
    · intro d hd
      rcases List.mem_append.1 hd with h | h
      · rcases List.mem_append.1 h with h | h
        · rcases List.mem_append.1 h with h | h
          · rw [List.mem_singleton.1 h]; omega
          · exact hdesc i d h
        · rw [List.mem_singleton.1 h]
          exact h1
      · exact hdesc _ d (List.mem_filter.1 h).1

/-- C20 at `alpha = [2, 1, 1]`, which has the cycle `1 ← 2 ← 1`, and `i = 1`. -/
theorem find_local_cases_exact_fill_witness :
    WellFormedAlpha [2, 1, 1] ∧
    IsCase ([2, 1, 1] : List Int).length 1 ∧
    cpp_find_local_cases [2, 1, 1] 1 = .ok [1, 2, 3, 2] ∧
    ∃ (desc_i out : List Int),
      cpp_find_descendents [2, 1, 1] 1 = .ok desc_i ∧
      cpp_find_local_cases [2, 1, 1] 1 = .ok out ∧
      (caseValue [2, 1, 1] 1 = NA_INTEGER → out.length = 1 + desc_i.length) ∧
      (caseValue [2, 1, 1] 1 ≠ NA_INTEGER →
        ∃ (x : Nat) (desc_x : List Int),
          (x : Int) = caseValue [2, 1, 1] 1 ∧
          cpp_find_descendents [2, 1, 1] x = .ok desc_x ∧
          desc_x.count ((1 : Nat) : Int) = 1 ∧
          out.length = 1 + desc_i.length + desc_x.length) ∧
      (∀ d ∈ out, 1 ≤ d) :=
  ⟨by decide, by decide, by decide,
    find_local_cases_exact_fill [2, 1, 1] 1 (by decide) (by decide)⟩

end Outbreaker
